import Mathlib

/-!
Verification of the core text-processing algorithms of an AI pull-request
reviewer: the unified-diff line mapper (`extractValidCommentLines`) and the
comment deduplication engine (`isDuplicateComment` with its template, keyword
and similarity subroutines), shallowly embedded from
`src/github/pullRequest.js`.

Strings are processed as `List Char` (the inputs of interest are ASCII).
JavaScript floating-point similarity scores are modelled as exact rationals.
Several scanners that jump past a match are written with an explicit fuel
argument (`fuel`) so that they are structurally recursive and hence evaluable
by `decide`; the fuel is always instantiated with the length of the input, and
fuel-irrelevance lemmas below show the value is immaterial once the fuel
covers the input.
-/

attribute [local semireducible] Rat.sub Rat.add Rat.mul Rat.ofScientific Rat.inv

/-! ### Character classes (JavaScript regex classes, ASCII) -/

/-- `[0-9]`, the digits recognised by the hunk-header regex. -/
def isDigitCh (c : Char) : Bool := '0' ≤ c && c ≤ '9'

/-- `[a-z]`. -/
def isLowerAlpha (c : Char) : Bool := 'a' ≤ c && c ≤ 'z'

/-- `[A-Z]`. -/
def isUpperAlpha (c : Char) : Bool := 'A' ≤ c && c ≤ 'Z'

/-- `[a-zA-Z]`. -/
def isAsciiLetter (c : Char) : Bool := isLowerAlpha c || isUpperAlpha c

/-- `[a-zA-Z0-9_]`, the JavaScript word class `\w`. -/
def isWordChar (c : Char) : Bool := isAsciiLetter c || isDigitCh c || c = '_'

/-- The whitespace class `\s` (ASCII part): space, tab, newline, carriage
return, vertical tab, form feed. -/
def isJsSpace (c : Char) : Bool :=
  c = ' ' || c = '\t' || c = '\n' || c = '\r' || c = Char.ofNat 11 || c = Char.ofNat 12

/-- ASCII lowering, the effect of JavaScript `toLowerCase` on the ASCII
inputs considered here. -/
def charLower (c : Char) : Char :=
  if isUpperAlpha c then Char.ofNat (c.toNat + 32) else c

/-- `pre` is a prefix of `l` (character-by-character comparison). -/
def chPrefix : List Char → List Char → Bool
  | [], _ => true
  | _ :: _, [] => false
  | a :: as, b :: bs => a = b && chPrefix as bs

/-- `sub` occurs as a contiguous substring of `l` (JavaScript
`String.includes`). -/
def listHasSub (sub : List Char) : List Char → Bool
  | [] => sub.isEmpty
  | c :: cs => chPrefix sub (c :: cs) || listHasSub sub cs

/-- `s.startsWith(pre)`. -/
def strStartsWith (s pre : String) : Bool := chPrefix pre.data s.data

/-- `w.includes(sub)`. -/
def strHasSub (w sub : String) : Bool := listHasSub sub.data w.data

/-! ### Diff line mapper (`extractValidCommentLines`)

The source scans the diff line by line.  A line starting with `@@` is matched
against the hunk-header regex `@@ -\d+(?:,\d+)? \+(\d+)(?:,\d+)? @@`
(a search anywhere in the line); on success the new-file cursor is set to the
captured start, on failure the line is skipped with the cursor untouched.
With the cursor set, a `+` or space line records the cursor and increments it;
a `-` line (or any other line) does neither. -/

/-- Value of a digit character. -/
def digitVal (c : Char) : Nat := c.toNat - 48

/-- `parseInt` on a nonempty digit run. -/
def digitsToNat (ds : List Char) : Nat := ds.foldl (fun n c => n * 10 + digitVal c) 0

/-- Consume the optional `,\d+` group of the hunk-header regex: if a comma
followed by at least one digit is present, the comma and the maximal digit
run after it are consumed; otherwise the input is left untouched. -/
def skipCommaDigits : List Char → List Char
  | ',' :: c :: cs => if isDigitCh c then (c :: cs).dropWhile isDigitCh else ',' :: c :: cs
  | l => l

/-- Try to match the hunk-header regex `@@ -\d+(?:,\d+)? \+(\d+)(?:,\d+)? @@`
starting exactly at the head of `l`, returning the captured new-file start.
The quantifiers take maximal digit runs, which coincides with the regex
backtracking semantics because a digit run is never followed by a digit. -/
def matchHeaderAt (l : List Char) : Option Nat :=
  match l with
  | '@' :: '@' :: ' ' :: '-' :: r1 =>
    match r1.takeWhile isDigitCh with
    | [] => none
    | _ :: _ =>
      match skipCommaDigits (r1.dropWhile isDigitCh) with
      | ' ' :: '+' :: r4 =>
        match r4.takeWhile isDigitCh with
        | [] => none
        | d2 =>
          match skipCommaDigits (r4.dropWhile isDigitCh) with
          | ' ' :: '@' :: '@' :: _ => some (digitsToNat d2)
          | _ => none
      | _ => none
  | _ => none

/-- JavaScript `line.match(re)`: search for the leftmost position where the
hunk-header pattern matches, returning its capture group. -/
def findHeaderMatch : List Char → Option Nat
  | [] => none
  | c :: cs =>
    match matchHeaderAt (c :: cs) with
    | some n => some n
    | none => findHeaderMatch cs

/-- The capture of `line.match(/@@ -\d+(?:,\d+)? \+(\d+)(?:,\d+)? @@/)`. -/
def hunkHeaderNewStart (line : String) : Option Nat := findHeaderMatch line.data

/-- JavaScript `diff.split('\n')`: split at every newline, keeping empty
pieces. -/
def splitNl : List Char → List (List Char)
  | [] => [[]]
  | c :: cs =>
    if c = '\n' then [] :: splitNl cs
    else
      match splitNl cs with
      | t :: ts => (c :: t) :: ts
      | [] => [[c]]

/-- The list of lines of a diff. -/
def diffLines (diff : String) : List String := (splitNl diff.data).map String.mk

/-- The scanning loop of `extractValidCommentLines`: `cur` is the
`currentLine` cursor (`none` models the initial `null`). -/
def extractLoop : Option Nat → List String → List Nat
  | _, [] => []
  | cur, l :: ls =>
    if strStartsWith l "@@" then
      match hunkHeaderNewStart l with
      | some n => extractLoop (some n) ls
      | none => extractLoop cur ls
    else
      match cur with
      | none => extractLoop none ls
      | some n =>
        if strStartsWith l "+" || strStartsWith l " " then
          n :: extractLoop (some (n + 1)) ls
        else
          extractLoop (some n) ls

/-- `extractValidCommentLines(diff)` from the source: valid new-file line
numbers for review comments.  An empty diff short-circuits to `[]`
(the JavaScript `if (!diff) return []` guard). -/
def extractValidCommentLines (diff : String) : List Nat :=
  if diff = "" then [] else extractLoop none (diffLines diff)

/-! ### Hunk decomposition of a diff

Used to state the per-hunk properties of `extractValidCommentLines`.  A line
is a (valid) hunk header exactly when the scanning loop would reset the
cursor on it: it starts with `@@` and the header regex matches somewhere in
it. -/

/-- The new-file start of a valid hunk-header line, `none` otherwise. -/
def validHeaderStart (l : String) : Option Nat :=
  if strStartsWith l "@@" then hunkHeaderNewStart l else none

/-- Body of the current hunk: the lines up to (excluding) the next valid
hunk header. -/
def hunkBody : List String → List String
  | [] => []
  | l :: ls => if (validHeaderStart l).isSome then [] else l :: hunkBody ls

/-- Rest of the line list from the next valid hunk header on. -/
def hunkRest : List String → List String
  | [] => []
  | l :: ls => if (validHeaderStart l).isSome then l :: ls else hunkRest ls

/-- Decompose a line list into hunks: each valid hunk header starts a hunk,
paired with its body; lines before the first valid header belong to no
hunk.  Fuel-structural; `splitHunks` instantiates the fuel. -/
def splitHunksF : Nat → List String → List (Nat × List String)
  | 0, _ => []
  | _ + 1, [] => []
  | fuel + 1, l :: ls =>
    match validHeaderStart l with
    | some n => (n, hunkBody ls) :: splitHunksF fuel (hunkRest ls)
    | none => splitHunksF fuel ls

/-- The hunks of a line list. -/
def splitHunks (ls : List String) : List (Nat × List String) := splitHunksF ls.length ls

/-- A diff line that is commentable inside a hunk body: it is tagged added
(`+` prefix) or context (space prefix). -/
def isCommentableLine (l : String) : Bool := strStartsWith l "+" || strStartsWith l " "

/-- Number of commentable lines of a hunk body. -/
def countCommentable (body : List String) : Nat := (body.filter isCommentableLine).length

/-- The line numbers contributed by one hunk: consecutive numbers from the
hunk's new-file start, one per commentable body line. -/
def hunkSeq (p : Nat × List String) : List Nat := List.range' p.1 (countCommentable p.2)

/-! ### Comment templates (`extractCommentTemplate`)

Three successive replacements on the comment text:
1. every `\b[a-zA-Z][a-zA-Z0-9_]*\b` token is classified by a callback
   (common word / language keyword kept, otherwise replaced by a
   placeholder);
2. the first `(json\.loads on )([A-Z][A-Z0-9_]*)` occurrence gets its
   second group replaced by `{ENV_VAR}`;
3. every `(\.\s*)([a-zA-Z][a-zA-Z0-9_]*)(\s*\()` occurrence gets its middle
   group replaced by `{method}`.

A `\b`-delimited token is a maximal run of word characters whose first
character is a letter (a run starting with a digit or underscore has no
word boundary before any of its letters, so rule 1 leaves it alone). -/

/-- The fixed allow-list of common English words (`isCommonWord`). -/
def commonWords : List String :=
  ["the", "if", "on", "in", "at", "by", "for", "with", "about", "against", "between", "into",
   "through", "during", "before", "after", "above", "below", "from", "up", "down", "may",
   "will", "can", "must", "should", "could", "would", "might", "every", "some", "other",
   "such", "only", "then", "than", "when", "been", "this", "that", "these", "those",
   "their", "has", "have", "had", "not", "and", "but", "or", "as", "what", "all"]

/-- `isCommonWord(word)`: membership of the lowercased word in the fixed
allow-list. -/
def isCommonWord (word : String) : Bool := commonWords.contains (String.mk (word.data.map charLower))

/-- The fixed allow-list of programming-language keywords (`isCodeKeyword`). -/
def codeKeywords : List String :=
  ["function", "return", "if", "else", "for", "while", "break", "continue",
   "class", "interface", "extends", "implements", "import", "export",
   "try", "catch", "finally", "throw", "async", "await", "new", "this",
   "const", "let", "var", "void", "null", "undefined", "true", "false",
   "public", "private", "protected", "static", "final", "abstract",
   "default", "delete", "instanceof", "typeof", "yield", "get", "set",
   "in", "of", "switch", "case", "super", "with"]

/-- `isCodeKeyword(word)`. -/
def isCodeKeyword (word : String) : Bool := codeKeywords.contains (String.mk (word.data.map charLower))

/-- `^[a-z][a-zA-Z0-9_]*$` — the camelCase-variable test of the callback. -/
def camelCasePat (s : String) : Bool :=
  match s.data with
  | [] => false
  | c :: cs => isLowerAlpha c && cs.all isWordChar

/-- `^[A-Z][a-zA-Z0-9_]*$` — the ClassName test of the callback. -/
def classNamePat (s : String) : Bool :=
  match s.data with
  | [] => false
  | c :: cs => isUpperAlpha c && cs.all isWordChar

/-- `[a-z0-9_]`, the character class of the snake_case pattern. -/
def isSnakeCh (c : Char) : Bool := isLowerAlpha c || isDigitCh c || c = '_'

/-- `^[a-z][a-z0-9_]*_[a-z0-9_]+$` — the snake_case test.  The tail matches
`[a-z0-9_]*_[a-z0-9_]+` iff it splits as `A ++ '_' :: B` with all characters
in the class and `B` nonempty, i.e. all characters are in the class and some
underscore occurs before the last position. -/
def snakeCasePat (s : String) : Bool :=
  match s.data with
  | [] => false
  | c :: cs => isLowerAlpha c && cs.all isSnakeCh && cs.dropLast.contains '_'

/-- `[A-Z0-9_]`, the character class of the CONSTANT pattern. -/
def isConstCh (c : Char) : Bool := isUpperAlpha c || isDigitCh c || c = '_'

/-- `^[A-Z][A-Z0-9_]*$` — the CONSTANT test. -/
def constCasePat (s : String) : Bool :=
  match s.data with
  | [] => false
  | c :: cs => isUpperAlpha c && cs.all isConstCh

/-- The replacement callback of the identifier pass, applied to each
`\b[a-zA-Z][a-zA-Z0-9_]*\b` token, with the tests in source order. -/
def templateToken (tok : String) : String :=
  if isCommonWord tok then tok
  else if isCodeKeyword tok then tok
  else if camelCasePat tok then "{var}"
  else if classNamePat tok then "{Class}"
  else if snakeCasePat tok then "{snake_var}"
  else if constCasePat tok then "{CONST}"
  else tok

/-- Rendering of a maximal word-character run under the identifier pass: a
run starting with a letter is a `\b`-token and goes through the callback,
any other run is left unchanged. -/
def renderRun (r : List Char) : List Char :=
  match r with
  | [] => []
  | c :: _ => if isAsciiLetter c then (templateToken (String.mk r)).data else r

/-- Pass 1 (fuel-structural): replace every `\b[a-zA-Z][a-zA-Z0-9_]*\b`
token via `templateToken`, keeping all other text. -/
def identifierPassF : Nat → List Char → List Char
  | 0, l => l
  | _ + 1, [] => []
  | fuel + 1, c :: cs =>
    if isWordChar c then
      renderRun (c :: cs.takeWhile isWordChar) ++ identifierPassF fuel (cs.dropWhile isWordChar)
    else
      c :: identifierPassF fuel cs

/-- Pass 1 of `extractCommentTemplate`. -/
def identifierPass (l : List Char) : List Char := identifierPassF l.length l

/-- The literal first group `json.loads on ` of the pass-2 regex. -/
def jsonLoadsLit : List Char := "json.loads on ".data

/-- Try the pass-2 pattern `(json\.loads on )([A-Z][A-Z0-9_]*)` at the head
of `l`; on success return the whole rewritten remainder (`$1{ENV_VAR}` plus
the text after the matched environment token). -/
def envVarMatchAt (l : List Char) : Option (List Char) :=
  if chPrefix jsonLoadsLit l then
    match l.drop jsonLoadsLit.length with
    | c :: cs =>
      if isUpperAlpha c then some (jsonLoadsLit ++ "{ENV_VAR}".data ++ cs.dropWhile isConstCh)
      else none
    | [] => none
  else none

/-- Pass 2: replace the first (leftmost) occurrence of the
`json.loads on CAPS` pattern; text after the replacement is untouched
(the regex has no global flag). -/
def envVarPass : List Char → List Char
  | [] => []
  | c :: cs =>
    match envVarMatchAt (c :: cs) with
    | some out => out
    | none => c :: envVarPass cs

/-- Whether the pass-2 pattern matches anywhere in `l`. -/
def envVarFires : List Char → Bool
  | [] => false
  | c :: cs => (envVarMatchAt (c :: cs)).isSome || envVarFires cs

/-- Try the pass-3 pattern `(\.\s*)([a-zA-Z][a-zA-Z0-9_]*)(\s*\()` given the
text `cs` following a `.`: greedy whitespace, a letter-led word run, greedy
whitespace, and an opening parenthesis.  On success, return the replacement
text for the part after the dot (`\s*` group, `{method}`, `\s*` group, `(`)
together with the unconsumed rest. -/
def methodCallMatch (cs : List Char) : Option (List Char × List Char) :=
  match cs.dropWhile isJsSpace with
  | c :: cs2 =>
    if isAsciiLetter c then
      match (cs2.dropWhile isWordChar).dropWhile isJsSpace with
      | '(' :: rest =>
        some (cs.takeWhile isJsSpace ++ "{method}".data ++
              (cs2.dropWhile isWordChar).takeWhile isJsSpace ++ ['('], rest)
      | _ => none
    else none
  | [] => none

/-- Pass 3 (fuel-structural): global replacement of every method-call
pattern, continuing the scan after each match. -/
def methodCallPassF : Nat → List Char → List Char
  | 0, l => l
  | _ + 1, [] => []
  | fuel + 1, c :: cs =>
    if c = '.' then
      match methodCallMatch cs with
      | some (out, rest) => c :: out ++ methodCallPassF fuel rest
      | none => c :: methodCallPassF fuel cs
    else
      c :: methodCallPassF fuel cs

/-- Pass 3 of `extractCommentTemplate`. -/
def methodCallPass (l : List Char) : List Char := methodCallPassF l.length l

/-- `extractCommentTemplate(comment)`: the three replacement passes in
source order. -/
def extractCommentTemplate (comment : String) : String :=
  String.mk (methodCallPass (envVarPass (identifierPass comment.data)))

/-! ### Keyword extraction (`extractKeywordsFromComment`) -/

/-- JavaScript `str.split(re)` for a separator class `p` repeated one or
more times: pieces between maximal separator runs, with empty pieces at the
boundaries (`"".split` gives `[""]`, a leading or trailing separator run
contributes an empty piece). -/
def jsSplitRuns (p : Char → Bool) : List Char → List (List Char)
  | [] => [[]]
  | c :: cs =>
    if p c then
      match cs with
      | c2 :: _ => if p c2 then jsSplitRuns p cs else [] :: jsSplitRuns p cs
      | [] => [[], []]
    else
      match jsSplitRuns p cs with
      | t :: ts => (c :: t) :: ts
      | [] => [[c]]

/-- The backtick character (code point 96). -/
def backtickCh : Char := Char.ofNat 96

/-- `words` of `extractKeywordsFromComment`: lowercase the text, split on
`\W+` and keep the pieces longer than 2 characters. -/
def keywordCandidateWords (commentText : String) : List String :=
  ((jsSplitRuns (fun c => !isWordChar c) (commentText.data.map charLower)).map String.mk).filter
    (fun w => decide (w.length > 2))

/-- The fixed technical-vocabulary list of `isCodeRelatedTerm`. -/
def codeRelatedTerms : List String :=
  ["async", "await", "sync", "function", "method", "class", "object",
   "variable", "const", "let", "var", "import", "export", "return",
   "parameter", "argument", "callback", "promise", "error", "exception",
   "null", "undefined", "boolean", "string", "number", "array", "json",
   "memory", "leak", "performance", "security", "vulnerability", "injection",
   "validation", "sanitize", "request", "response", "api", "database",
   "query", "sql", "http", "token", "authentication", "authorization",
   "upload", "download", "file", "stream", "buffer", "parse", "serialize"]

/-- `isCodeRelatedTerm(word)`: fixed-list membership, or `error`, `bug`,
`fix` or `issue` occurring as a substring. -/
def isCodeRelatedTerm (word : String) : Bool :=
  codeRelatedTerms.contains word ||
  strHasSub word "error" || strHasSub word "bug" || strHasSub word "fix" || strHasSub word "issue"

/-- The `technicalTerms` of `extractKeywordsFromComment`: candidate words
kept by `isCodeRelatedTerm`. -/
def technicalTermsOf (commentText : String) : List String :=
  (keywordCandidateWords commentText).filter isCodeRelatedTerm

/-- Match one alternative of the code-element regex
```[^`]+`|\b[a-zA-Z0-9_]+\(\)|\b[A-Z][a-zA-Z0-9_]+|[a-z][a-zA-Z0-9_]+\.[a-z][a-zA-Z0-9_]+``
at the head of `l` (the alternatives in source order; `prevW` records
whether the previous character was a word character, for the `\b`
assertions).  Returns the matched text and the rest. -/
def codeElemAt (prevW : Bool) (l : List Char) : Option (List Char × List Char) :=
  match l with
  | [] => none
  | c :: cs =>
    -- alternative 1: a backtick span
    if c = backtickCh then
      match cs.dropWhile (fun d => !(d = backtickCh)) with
      | d :: rest =>
        if cs.takeWhile (fun d => !(d = backtickCh)) = [] then none
        else some (c :: cs.takeWhile (fun d => !(d = backtickCh)) ++ [d], rest)
      | [] => none
    -- alternative 2: `\b[a-zA-Z0-9_]+\(\)`
    else if !prevW && isWordChar c &&
        chPrefix "()".data ((cs.dropWhile isWordChar)) then
      some (c :: cs.takeWhile isWordChar ++ "()".data, (cs.dropWhile isWordChar).drop 2)
    -- alternative 3: `\b[A-Z][a-zA-Z0-9_]+`
    else if !prevW && isUpperAlpha c && !(cs.takeWhile isWordChar).isEmpty then
      some (c :: cs.takeWhile isWordChar, cs.dropWhile isWordChar)
    -- alternative 4: `[a-z][a-zA-Z0-9_]+\.[a-z][a-zA-Z0-9_]+` (no `\b`)
    else if isLowerAlpha c && !(cs.takeWhile isWordChar).isEmpty then
      match cs.dropWhile isWordChar with
      | '.' :: d :: ds =>
        if isLowerAlpha d && !(ds.takeWhile isWordChar).isEmpty then
          some (c :: cs.takeWhile isWordChar ++ '.' :: d :: ds.takeWhile isWordChar,
                ds.dropWhile isWordChar)
        else none
      | _ => none
    else none

/-- Global scan of the code-element regex (fuel-structural): try the
alternatives at each position from the left, continuing after each match. -/
def codeElemScanF : Nat → Bool → List Char → List String
  | 0, _, _ => []
  | _ + 1, _, [] => []
  | fuel + 1, prevW, c :: cs =>
    match codeElemAt prevW (c :: cs) with
    | some (m, rest) => String.mk m :: codeElemScanF fuel (m.getLastD ' ' |> isWordChar) rest
    | none => codeElemScanF fuel (isWordChar c) cs

/-- `commentText.match(codeElementRegex) || []`. -/
def codeElementMatches (commentText : String) : List String :=
  codeElemScanF commentText.data.length false commentText.data

/-- Auxiliary scan of `dedupFirst`, remembering the elements already seen. -/
def dedupFirstAux (seen : List String) : List String → List String
  | [] => []
  | x :: xs => if seen.contains x then dedupFirstAux seen xs else x :: dedupFirstAux (x :: seen) xs

/-- Order-preserving deduplication, the effect of
`[...new Set(list)]`. -/
def dedupFirst (l : List String) : List String := dedupFirstAux [] l

/-- `extractKeywordsFromComment(commentText)`: lowercased, de-backticked
code elements plus technical terms, deduplicated in order. -/
def extractKeywordsFromComment (commentText : String) : List String :=
  dedupFirst
    ((codeElementMatches commentText).map
        (fun s => String.mk ((s.data.filter (fun d => !(d = backtickCh))).map charLower)) ++
      technicalTermsOf commentText)

/-! ### Similarity scores -/

/-- `calculateKeywordOverlap(keywords1, keywords2)`: 0 if either list is
empty, otherwise the number of keywords of the first list occurring in the
second, divided by the size of the union. -/
def calculateKeywordOverlap (keywords1 keywords2 : List String) : ℚ :=
  if keywords1.length = 0 ∨ keywords2.length = 0 then 0
  else
    mkRat (keywords1.filter (fun kw => keywords2.contains kw)).length
          (dedupFirst (keywords1 ++ keywords2)).length

/-- The punctuation class removed by `normalize` inside `stringSimilarity`:
`[.,\/#!$%\^&\*;:{}=\-_`~()]`. -/
def isPunctCh (c : Char) : Bool :=
  c = '.' || c = ',' || c = '/' || c = '#' || c = '!' || c = '$' || c = '%' ||
  c = '^' || c = '&' || c = '*' || c = ';' || c = ':' || c = Char.ofNat 123 ||
  c = Char.ofNat 125 || c = '=' || c = '-' || c = '_' || c = backtickCh ||
  c = '~' || c = '(' || c = ')'

/-- JavaScript `trim`: strip whitespace from both ends. -/
def jsTrim (l : List Char) : List Char :=
  ((l.dropWhile isJsSpace).reverse.dropWhile isJsSpace).reverse

/-- `normalize` of `stringSimilarity`: lowercase, map the punctuation class
to spaces, trim. -/
def normalizeStr (s : String) : String :=
  String.mk (jsTrim ((s.data.map charLower).map (fun c => if isPunctCh c then ' ' else c)))

/-- A character that survives normalization as a visible (non-space)
character: after lowercasing it is neither in the punctuation class (which
becomes a space) nor whitespace.  `normalizeStr s` is nonempty exactly when
`s` contains such a character. -/
def solidCh (c : Char) : Bool :=
  !(isPunctCh (charLower c)) && !(isJsSpace (charLower c))

/-- One row-update of the Levenshtein dynamic program: given the previous
row (as `diag`, the entry above-left, and `up :: prevTail`, the entries
above and to its right), produce the tail of the next row for text `ys`
against the new character `c`.  `left` is the most recent entry of the new
row. -/
def levRowGo (c : Char) : List Char → List Nat → Nat → Nat → List Nat
  | [], _, _, _ => []
  | _ :: _, [], _, _ => []
  | y :: ys, up :: prevTail, diag, left =>
    let v := min (min (up + 1) (left + 1)) (diag + if c = y then 0 else 1)
    v :: levRowGo c ys prevTail up v

/-- `levenshteinDistance(str1, str2)`: the standard dynamic program of the
source (`dp[i][j]` = distance of the length-`i` and length-`j` prefixes),
computed row by row; the result is the last entry of the last row. -/
def levenshteinDistance (str1 str2 : String) : Nat :=
  let row0 := List.range (str2.length + 1)
  let finalRow := str1.data.foldl
    (fun row c =>
      match row with
      | d :: tail => (d + 1) :: levRowGo c str2.data tail d (d + 1)
      | [] => [])
    row0
  finalRow.getLastD 0

/-- `wordBasedSimilarity(str1, str2)`: Dice coefficient over words longer
than 2 characters (0 if either side has no such word). -/
def wordBasedSimilarity (str1 str2 : String) : ℚ :=
  let words1 := ((jsSplitRuns isJsSpace str1.data).map String.mk).filter
    (fun w => decide (w.length > 2))
  let words2 := ((jsSplitRuns isJsSpace str2.data).map String.mk).filter
    (fun w => decide (w.length > 2))
  if words1.length = 0 ∨ words2.length = 0 then 0
  else
    mkRat (2 * (words1.filter (fun w => words2.contains w)).length)
          (words1.length + words2.length)

/-- `stringSimilarity(str1, str2)`: normalize both sides; word-based
comparison when the lengths differ by more than 20, otherwise
`1 - levenshteinDistance / maxLength` (1 when both are empty). -/
def stringSimilarity (str1 str2 : String) : ℚ :=
  let s1 := normalizeStr str1
  let s2 := normalizeStr str2
  if ((s1.length : Int) - (s2.length : Int)).natAbs > 20 then
    wordBasedSimilarity s1 s2
  else
    let distance := levenshteinDistance s1 s2
    let maxLength := max s1.length s2.length
    if maxLength = 0 then 1 else 1 - mkRat distance maxLength

/-! ### The deduplication decision (`isDuplicateComment`) -/

/-- A pull-request review comment as consumed by the deduplicator: a line
number and a body. -/
structure ReviewComment where
  line : Int
  body : String
deriving DecidableEq

/-- `isDuplicateComment(newComment, existingComments, lineProximity)` (the
source defaults `lineProximity` to 5): scan the existing comments; skip
those farther than `lineProximity` lines away; report a duplicate on an
exact template match, or when the keyword overlap exceeds 0.5, the raw text
similarity exceeds 0.6, or the template similarity exceeds 0.85. -/
def isDuplicateComment (newComment : ReviewComment) (existingComments : List ReviewComment)
    (lineProximity : Nat) : Bool :=
  match existingComments with
  | [] => false
  | existingComment :: rest =>
    if (existingComment.line - newComment.line).natAbs > lineProximity then
      isDuplicateComment newComment rest lineProximity
    else if extractCommentTemplate existingComment.body = extractCommentTemplate newComment.body then
      true
    else if calculateKeywordOverlap (extractKeywordsFromComment newComment.body)
              (extractKeywordsFromComment existingComment.body) > 0.5
        ∨ stringSimilarity newComment.body existingComment.body > 0.6
        ∨ stringSimilarity (extractCommentTemplate newComment.body)
              (extractCommentTemplate existingComment.body) > 0.85 then
      true
    else
      isDuplicateComment newComment rest lineProximity

/-! ### Basic list lemmas -/

theorem length_dropWhile_le (p : Char → Bool) (l : List Char) :
    (l.dropWhile p).length ≤ l.length := by
  induction l with
  | nil => simp [List.dropWhile]
  | cons c cs ih =>
    by_cases h : p c
    · simp [List.dropWhile, h]; omega
    · simp [List.dropWhile, h]

theorem takeWhile_all (p : Char → Bool) (l : List Char) :
    (l.takeWhile p).all p = true := by
  induction l with
  | nil => simp [List.takeWhile]
  | cons c cs ih =>
    by_cases h : p c
    · simp [List.takeWhile, h, ih]
    · simp [List.takeWhile, h]

theorem takeWhile_eq_self_of_all (p : Char → Bool) (l : List Char) (h : l.all p = true) :
    l.takeWhile p = l := by
  induction l with
  | nil => simp
  | cons c cs ih =>
    simp only [List.all_cons, Bool.and_eq_true] at h
    simp [List.takeWhile, h.1, ih h.2]

theorem dropWhile_eq_nil_of_all (p : Char → Bool) (l : List Char) (h : l.all p = true) :
    l.dropWhile p = [] := by
  induction l with
  | nil => simp
  | cons c cs ih =>
    simp only [List.all_cons, Bool.and_eq_true] at h
    simp [List.dropWhile, h.1, ih h.2]

theorem takeWhile_append_of_all (p : Char → Bool) (A B : List Char) (h : A.all p = true) :
    (A ++ B).takeWhile p = A ++ B.takeWhile p := by
  induction A with
  | nil => simp
  | cons c cs ih =>
    simp only [List.all_cons, Bool.and_eq_true] at h
    simp [List.takeWhile, h.1, ih h.2]

theorem dropWhile_append_of_all (p : Char → Bool) (A B : List Char) (h : A.all p = true) :
    (A ++ B).dropWhile p = B.dropWhile p := by
  induction A with
  | nil => simp
  | cons c cs ih =>
    simp only [List.all_cons, Bool.and_eq_true] at h
    simp [List.dropWhile, h.1, ih h.2]

theorem takeWhile_append_of_not_all (p : Char → Bool) (A B : List Char) (h : ¬ A.all p = true) :
    (A ++ B).takeWhile p = A.takeWhile p := by
  induction A with
  | nil => simp at h
  | cons c cs ih =>
    by_cases hc : p c
    · simp only [List.all_cons, hc, Bool.true_and] at h
      simp [List.takeWhile, hc, ih h]
    · simp [List.takeWhile, hc]

theorem dropWhile_append_of_not_all (p : Char → Bool) (A B : List Char) (h : ¬ A.all p = true) :
    (A ++ B).dropWhile p = A.dropWhile p ++ B := by
  induction A with
  | nil => simp at h
  | cons c cs ih =>
    by_cases hc : p c
    · simp only [List.all_cons, hc, Bool.true_and] at h
      simp [List.dropWhile, hc, ih h]
    · simp [List.dropWhile, hc]

theorem dropWhile_ne_nil_of_not_all (p : Char → Bool) (A : List Char) (h : ¬ A.all p = true) :
    A.dropWhile p ≠ [] := by
  induction A with
  | nil => simp at h
  | cons c cs ih =>
    by_cases hc : p c
    · simp only [List.all_cons, hc, Bool.true_and] at h
      simpa [List.dropWhile, hc] using ih h
    · simp [List.dropWhile, hc]

theorem head_not_of_dropWhile (p : Char → Bool) (l : List Char) (c : Char) (t : List Char)
    (h : l.dropWhile p = c :: t) : p c = false := by
  induction l with
  | nil => simp at h
  | cons d ds ih =>
    by_cases hd : p d
    · exact ih (by simpa [List.dropWhile, hd] using h)
    · rw [List.dropWhile_cons_of_neg hd] at h
      cases h
      simpa using hd

theorem takeWhile_eq_nil_of_head (p : Char → Bool) (l : List Char)
    (h : ∀ b, l.head? = some b → p b = false) : l.takeWhile p = [] := by
  cases l with
  | nil => simp
  | cons c cs => simp [List.takeWhile, h c rfl]

theorem dropWhile_eq_self_of_head (p : Char → Bool) (l : List Char)
    (h : ∀ b, l.head? = some b → p b = false) : l.dropWhile p = l := by
  cases l with
  | nil => simp
  | cons c cs => simp [List.dropWhile, h c rfl]

theorem getLast?_cons_of_ne_nil (c : Char) (l : List Char) (h : l ≠ []) :
    (c :: l).getLast? = l.getLast? := by
  cases l with
  | nil => simp at h
  | cons d ds => exact List.getLast?_cons_cons

theorem getLast?_dropWhile (p : Char → Bool) (l : List Char) (h : l.dropWhile p ≠ []) :
    (l.dropWhile p).getLast? = l.getLast? := by
  induction l with
  | nil => simp at h
  | cons c cs ih =>
    by_cases hc : p c
    · rw [List.dropWhile_cons_of_pos hc] at h ⊢
      rw [ih h, getLast?_cons_of_ne_nil c cs]
      intro hnil
      exact h (by simp [hnil, List.dropWhile])
    · rw [List.dropWhile_cons_of_neg hc]

/-- `chPrefix p t` holds exactly when `t` extends `p`. -/
theorem chPrefix_iff_append (p t : List Char) :
    chPrefix p t = true ↔ ∃ r, t = p ++ r := by
  induction p generalizing t with
  | nil => simp [chPrefix]
  | cons a as ih =>
    cases t with
    | nil =>
      simp only [chPrefix, List.append_eq]
      constructor
      · intro h; cases h
      · rintro ⟨r, hr⟩; cases hr
    | cons b bs =>
      simp only [chPrefix, Bool.and_eq_true, decide_eq_true_eq, ih]
      constructor
      · rintro ⟨rfl, r, rfl⟩; exact ⟨r, rfl⟩
      · rintro ⟨r, hr⟩
        injection hr with h1 h2
        exact ⟨h1.symm, r, h2⟩

theorem chPrefix_self_append (p r : List Char) : chPrefix p (p ++ r) = true :=
  (chPrefix_iff_append p (p ++ r)).mpr ⟨r, rfl⟩

theorem listHasSub_nil_left (l : List Char) : listHasSub [] l = true := by
  cases l with
  | nil => rfl
  | cons c cs => simp [listHasSub, chPrefix]

/-- A planted substring is found by `listHasSub`. -/
theorem listHasSub_of_parts (s pre post : List Char) :
    listHasSub s (pre ++ s ++ post) = true := by
  induction pre with
  | nil =>
    cases s with
    | nil => simpa using listHasSub_nil_left post
    | cons a as =>
      simp only [List.nil_append, List.cons_append, listHasSub, Bool.or_eq_true]
      exact Or.inl (by simpa using chPrefix_self_append (a :: as) post)
  | cons c cs ih =>
    simp only [List.cons_append, listHasSub, Bool.or_eq_true]
    exact Or.inr (by simpa using ih)

theorem listHasSub_tail_false (s : List Char) (c : Char) (t : List Char)
    (h : listHasSub s (c :: t) = false) : listHasSub s t = false := by
  simp only [listHasSub, Bool.or_eq_false_iff] at h
  exact h.2

/-! ### Fuel irrelevance and unfolding equations -/

theorem identifierPassF_congr (f1 : Nat) : ∀ (l : List Char) (f2 : Nat),
    l.length ≤ f1 → l.length ≤ f2 → identifierPassF f1 l = identifierPassF f2 l := by
  induction f1 with
  | zero =>
    intro l f2 h1 _
    have hl : l = [] := List.eq_nil_of_length_eq_zero (Nat.le_zero.mp h1)
    subst hl
    cases f2 <;> rfl
  | succ f ih =>
    intro l f2 h1 h2
    cases l with
    | nil => cases f2 <;> rfl
    | cons c cs =>
      cases f2 with
      | zero => simp at h2
      | succ g =>
        simp only [List.length_cons, Nat.succ_le_succ_iff] at h1 h2
        cases hw : isWordChar c with
        | true =>
          simp only [identifierPassF, hw, if_true]
          congr 1
          exact ih _ g (le_trans (length_dropWhile_le _ _) h1)
            (le_trans (length_dropWhile_le _ _) h2)
        | false =>
          simp only [identifierPassF, hw, Bool.false_eq_true, if_false]
          congr 1
          exact ih _ g h1 h2

theorem identifierPass_nil : identifierPass [] = [] := rfl

theorem identifierPass_cons_not (c : Char) (cs : List Char) (h : isWordChar c = false) :
    identifierPass (c :: cs) = c :: identifierPass cs := by
  simp [identifierPass, identifierPassF, h]

theorem identifierPass_cons_word (c : Char) (cs : List Char) (h : isWordChar c = true) :
    identifierPass (c :: cs) =
      renderRun (c :: cs.takeWhile isWordChar) ++ identifierPass (cs.dropWhile isWordChar) := by
  simp only [identifierPass, List.length_cons, identifierPassF, h, if_true]
  congr 1
  exact identifierPassF_congr cs.length _ _ (length_dropWhile_le _ _) le_rfl

theorem methodCallMatch_rest_lt (cs out rest : List Char)
    (h : methodCallMatch cs = some (out, rest)) : rest.length < cs.length := by
  unfold methodCallMatch at h
  split at h
  case _ c' cs2 heq =>
    split at h
    · split at h
      case _ rest' heq2 =>
        simp only [Option.some.injEq, Prod.mk.injEq] at h
        obtain ⟨-, hrest⟩ := h
        subst hrest
        have e1 : (cs.dropWhile isJsSpace).length ≤ cs.length := length_dropWhile_le _ _
        have e2 : ((cs2.dropWhile isWordChar).dropWhile isJsSpace).length ≤ cs2.length :=
          le_trans (length_dropWhile_le _ _) (length_dropWhile_le _ _)
        rw [heq] at e1
        rw [heq2] at e2
        simp only [List.length_cons] at e1 e2
        omega
      case _ => exact absurd h (by simp)
    · exact absurd h (by simp)
  case _ => exact absurd h (by simp)

theorem methodCallPassF_congr (f1 : Nat) : ∀ (l : List Char) (f2 : Nat),
    l.length ≤ f1 → l.length ≤ f2 → methodCallPassF f1 l = methodCallPassF f2 l := by
  induction f1 with
  | zero =>
    intro l f2 h1 _
    have hl : l = [] := List.eq_nil_of_length_eq_zero (Nat.le_zero.mp h1)
    subst hl
    cases f2 <;> rfl
  | succ f ih =>
    intro l f2 h1 h2
    cases l with
    | nil => cases f2 <;> rfl
    | cons c cs =>
      cases f2 with
      | zero => simp at h2
      | succ g =>
        simp only [List.length_cons, Nat.succ_le_succ_iff] at h1 h2
        by_cases hc : c = '.'
        · subst hc
          cases hm : methodCallMatch cs with
          | none =>
            simp only [methodCallPassF, if_pos rfl, hm, if_true]
            rw [ih cs g h1 h2]
          | some pr =>
            obtain ⟨out, rest⟩ := pr
            have hrest : rest.length < cs.length := methodCallMatch_rest_lt cs out rest hm
            simp only [methodCallPassF, if_pos rfl, hm, if_true]
            rw [ih rest g (le_trans (Nat.le_of_lt hrest) h1) (le_trans (Nat.le_of_lt hrest) h2)]
        · simp only [methodCallPassF, if_neg hc]
          congr 1
          exact ih _ g h1 h2

theorem methodCallPassF_nil (fuel : Nat) : methodCallPassF fuel [] = [] := by
  cases fuel <;> rfl

theorem methodCallPass_nil : methodCallPass [] = [] := rfl

theorem methodCallPass_cons_not (c : Char) (cs : List Char) (h : ¬ c = '.') :
    methodCallPass (c :: cs) = c :: methodCallPass cs := by
  simp [methodCallPass, methodCallPassF, h]

theorem methodCallPass_cons_dot_none (cs : List Char) (h : methodCallMatch cs = none) :
    methodCallPass ('.' :: cs) = '.' :: methodCallPass cs := by
  simp [methodCallPass, methodCallPassF, h]

theorem methodCallPass_cons_dot_some (cs out rest : List Char)
    (h : methodCallMatch cs = some (out, rest)) :
    methodCallPass ('.' :: cs) = '.' :: out ++ methodCallPass rest := by
  have hrest := methodCallMatch_rest_lt cs out rest h
  have hc := methodCallPassF_congr cs.length rest rest.length (Nat.le_of_lt hrest) le_rfl
  simp [methodCallPass, methodCallPassF, h, hc]

theorem hunkRest_length_le (ls : List String) : (hunkRest ls).length ≤ ls.length := by
  induction ls with
  | nil => simp [hunkRest]
  | cons l ls ih =>
    cases hb : (validHeaderStart l).isSome with
    | true => simp [hunkRest, hb]
    | false =>
      simp only [hunkRest, hb, Bool.false_eq_true, if_false, List.length_cons]
      omega

theorem splitHunksF_congr (f1 : Nat) : ∀ (ls : List String) (f2 : Nat),
    ls.length ≤ f1 → ls.length ≤ f2 → splitHunksF f1 ls = splitHunksF f2 ls := by
  induction f1 with
  | zero =>
    intro ls f2 h1 _
    have hl : ls = [] := List.eq_nil_of_length_eq_zero (Nat.le_zero.mp h1)
    subst hl
    cases f2 <;> rfl
  | succ f ih =>
    intro ls f2 h1 h2
    cases ls with
    | nil => cases f2 <;> rfl
    | cons l ls =>
      cases f2 with
      | zero => simp at h2
      | succ g =>
        simp only [List.length_cons, Nat.succ_le_succ_iff] at h1 h2
        cases hv : validHeaderStart l with
        | some n =>
          simp only [splitHunksF, hv]
          congr 1
          exact ih _ g (le_trans (hunkRest_length_le _) h1) (le_trans (hunkRest_length_le _) h2)
        | none =>
          simp only [splitHunksF, hv]
          exact ih _ g h1 h2

theorem splitHunks_nil : splitHunks [] = [] := rfl

theorem splitHunks_cons_header (l : String) (ls : List String) (n : Nat)
    (h : validHeaderStart l = some n) :
    splitHunks (l :: ls) = (n, hunkBody ls) :: splitHunks (hunkRest ls) := by
  simp only [splitHunks, List.length_cons, splitHunksF, h]
  congr 1
  exact splitHunksF_congr ls.length _ _ (hunkRest_length_le _) le_rfl

theorem splitHunks_cons_not (l : String) (ls : List String) (h : validHeaderStart l = none) :
    splitHunks (l :: ls) = splitHunks ls := by
  simp [splitHunks, splitHunksF, h]

/-! ### The diff scan decomposes into hunks -/

theorem extractLoop_cons_header_some (cur : Option Nat) (l : String) (ls : List String) (n : Nat)
    (h1 : strStartsWith l "@@" = true) (h2 : hunkHeaderNewStart l = some n) :
    extractLoop cur (l :: ls) = extractLoop (some n) ls := by
  simp [extractLoop, h1, h2]

theorem extractLoop_cons_header_none (cur : Option Nat) (l : String) (ls : List String)
    (h1 : strStartsWith l "@@" = true) (h2 : hunkHeaderNewStart l = none) :
    extractLoop cur (l :: ls) = extractLoop cur ls := by
  cases cur <;> simp [extractLoop, h1, h2]

theorem extractLoop_cons_content_none (l : String) (ls : List String)
    (h : strStartsWith l "@@" = false) :
    extractLoop none (l :: ls) = extractLoop none ls := by
  simp [extractLoop, h]

theorem extractLoop_cons_content_push (n : Nat) (l : String) (ls : List String)
    (h1 : strStartsWith l "@@" = false) (h2 : isCommentableLine l = true) :
    extractLoop (some n) (l :: ls) = n :: extractLoop (some (n + 1)) ls := by
  simp only [isCommentableLine] at h2
  simp [extractLoop, h1, h2]

theorem extractLoop_cons_content_skip (n : Nat) (l : String) (ls : List String)
    (h1 : strStartsWith l "@@" = false) (h2 : isCommentableLine l = false) :
    extractLoop (some n) (l :: ls) = extractLoop (some n) ls := by
  simp only [isCommentableLine, Bool.or_eq_false_iff] at h2
  simp [extractLoop, h1, h2.1, h2.2]

theorem header_not_commentable (l : String) (h : strStartsWith l "@@" = true) :
    isCommentableLine l = false := by
  obtain ⟨r, hr⟩ := (chPrefix_iff_append _ _).mp h
  have h2 : ("@@" : String).data = ['@', '@'] := rfl
  rw [h2] at hr
  simp [isCommentableLine, strStartsWith, hr, chPrefix]

theorem validHeaderStart_eq_some (l : String) (n : Nat) (h : validHeaderStart l = some n) :
    strStartsWith l "@@" = true ∧ hunkHeaderNewStart l = some n := by
  unfold validHeaderStart at h
  cases hsw : strStartsWith l "@@" with
  | true => rw [hsw, if_pos rfl] at h; exact ⟨rfl, h⟩
  | false => rw [hsw] at h; simp at h

theorem countCommentable_nil : countCommentable [] = 0 := rfl

theorem countCommentable_cons_true (l : String) (body : List String)
    (h : isCommentableLine l = true) :
    countCommentable (l :: body) = countCommentable body + 1 := by
  simp [countCommentable, List.filter_cons, h]

theorem countCommentable_cons_false (l : String) (body : List String)
    (h : isCommentableLine l = false) :
    countCommentable (l :: body) = countCommentable body := by
  simp [countCommentable, List.filter_cons, h]

theorem extractLoop_some_eq (ls : List String) : ∀ (n : Nat),
    extractLoop (some n) ls =
      List.range' n (countCommentable (hunkBody ls)) ++ extractLoop none (hunkRest ls) := by
  induction ls with
  | nil => intro n; simp [extractLoop, hunkBody, hunkRest, countCommentable]
  | cons l ls ih =>
    intro n
    cases hsw : strStartsWith l "@@" with
    | true =>
      cases hns : hunkHeaderNewStart l with
      | some m =>
        have hv : validHeaderStart l = some m := by simp [validHeaderStart, hsw, hns]
        rw [extractLoop_cons_header_some (some n) l ls m hsw hns]
        have hb : hunkBody (l :: ls) = [] := by simp [hunkBody, hv]
        have hr : hunkRest (l :: ls) = l :: ls := by simp [hunkRest, hv]
        rw [hb, hr, countCommentable_nil]
        rw [extractLoop_cons_header_some none l ls m hsw hns]
        simp
      | none =>
        have hv : validHeaderStart l = none := by simp [validHeaderStart, hsw, hns]
        have hcl : isCommentableLine l = false := header_not_commentable l hsw
        rw [extractLoop_cons_header_none (some n) l ls hsw hns]
        have hb : hunkBody (l :: ls) = l :: hunkBody ls := by simp [hunkBody, hv]
        have hr : hunkRest (l :: ls) = hunkRest ls := by simp [hunkRest, hv]
        rw [hb, hr, countCommentable_cons_false l _ hcl]
        exact ih n
    | false =>
      have hv : validHeaderStart l = none := by simp [validHeaderStart, hsw]
      have hb : hunkBody (l :: ls) = l :: hunkBody ls := by simp [hunkBody, hv]
      have hr : hunkRest (l :: ls) = hunkRest ls := by simp [hunkRest, hv]
      cases hcl : isCommentableLine l with
      | true =>
        rw [extractLoop_cons_content_push n l ls hsw hcl, hb, hr,
          countCommentable_cons_true l _ hcl, List.range'_succ, ih (n + 1)]
        simp
      | false =>
        rw [extractLoop_cons_content_skip n l ls hsw hcl, hb, hr,
          countCommentable_cons_false l _ hcl]
        exact ih n

theorem extractLoop_none_hunks (fuel : Nat) : ∀ (ls : List String), ls.length ≤ fuel →
    extractLoop none ls = ((splitHunksF fuel ls).map hunkSeq).join := by
  induction fuel with
  | zero =>
    intro ls h
    have hl : ls = [] := List.eq_nil_of_length_eq_zero (Nat.le_zero.mp h)
    subst hl
    rfl
  | succ f ih =>
    intro ls h
    cases ls with
    | nil => simp [extractLoop, splitHunksF]
    | cons l ls =>
      simp only [List.length_cons, Nat.succ_le_succ_iff] at h
      cases hv : validHeaderStart l with
      | some n =>
        obtain ⟨hsw, hns⟩ := validHeaderStart_eq_some l n hv
        rw [extractLoop_cons_header_some none l ls n hsw hns, extractLoop_some_eq ls n]
        simp only [splitHunksF, hv, List.map_cons, List.join]
        rw [ih (hunkRest ls) (le_trans (hunkRest_length_le _) h)]
        simp [hunkSeq]
      | none =>
        have hstep : extractLoop none (l :: ls) = extractLoop none ls := by
          cases hsw : strStartsWith l "@@" with
          | true =>
            have hns : hunkHeaderNewStart l = none := by
              unfold validHeaderStart at hv
              rwa [hsw, if_pos rfl] at hv
            exact extractLoop_cons_header_none none l ls hsw hns
          | false => exact extractLoop_cons_content_none l ls hsw
        rw [hstep]
        simp only [splitHunksF, hv]
        exact ih ls h

theorem chain'_lt_range' (k : Nat) : ∀ (a : Nat), List.Chain' (· < ·) (List.range' a k) := by
  induction k with
  | zero => intro a; simp
  | succ k ih =>
    intro a
    rw [List.range'_succ]
    cases k with
    | zero => simp
    | succ k' =>
      rw [List.range'_succ]
      exact List.Chain'.cons (by omega) (by rw [← List.range'_succ]; exact ih (a + 1))

/-! ### The deduplication decision as an existential -/

theorem isDuplicateComment_exists (nc : ReviewComment) (prox : Nat) :
    ∀ (ex : List ReviewComment),
    isDuplicateComment nc ex prox = true ↔
      ∃ e ∈ ex, (e.line - nc.line).natAbs ≤ prox ∧
        (extractCommentTemplate e.body = extractCommentTemplate nc.body
          ∨ calculateKeywordOverlap (extractKeywordsFromComment nc.body)
              (extractKeywordsFromComment e.body) > 0.5
          ∨ stringSimilarity nc.body e.body > 0.6
          ∨ stringSimilarity (extractCommentTemplate nc.body)
              (extractCommentTemplate e.body) > 0.85) := by
  intro ex
  induction ex with
  | nil => simp [isDuplicateComment]
  | cons e rest ih =>
    by_cases h1 : (e.line - nc.line).natAbs > prox
    · have hstep : isDuplicateComment nc (e :: rest) prox = isDuplicateComment nc rest prox := by
        simp [isDuplicateComment, h1]
      rw [hstep, ih]
      constructor
      · rintro ⟨x, hx, hp⟩
        exact ⟨x, List.mem_cons_of_mem _ hx, hp⟩
      · rintro ⟨x, hx, hp⟩
        rcases List.mem_cons.mp hx with heq | hx'
        · subst heq; exact absurd hp.1 (by omega)
        · exact ⟨x, hx', hp⟩
    · have h1' : ¬ ((e.line - nc.line).natAbs > prox) = True := by simp [h1]
      by_cases h2 : extractCommentTemplate e.body = extractCommentTemplate nc.body
      · have hstep : isDuplicateComment nc (e :: rest) prox = true := by
          simp [isDuplicateComment, h1, h2]
        rw [hstep]
        simp only [true_iff]
        exact ⟨e, List.mem_cons_self e rest, by omega, Or.inl h2⟩
      · by_cases h3 : calculateKeywordOverlap (extractKeywordsFromComment nc.body)
              (extractKeywordsFromComment e.body) > 0.5
          ∨ stringSimilarity nc.body e.body > 0.6
          ∨ stringSimilarity (extractCommentTemplate nc.body)
              (extractCommentTemplate e.body) > 0.85
        · have hstep : isDuplicateComment nc (e :: rest) prox = true := by
            simp [isDuplicateComment, h1, h2, h3]
          rw [hstep]
          simp only [true_iff]
          exact ⟨e, List.mem_cons_self e rest, by omega, Or.inr h3⟩
        · have hstep : isDuplicateComment nc (e :: rest) prox =
              isDuplicateComment nc rest prox := by
            simp [isDuplicateComment, h1, h2, h3]
          rw [hstep, ih]
          constructor
          · rintro ⟨x, hx, hp⟩
            exact ⟨x, List.mem_cons_of_mem _ hx, hp⟩
          · rintro ⟨x, hx, hp⟩
            rcases List.mem_cons.mp hx with heq | hx'
            · subst heq
              rcases hp.2 with hc | hc
              · exact absurd hc h2
              · exact absurd hc h3
            · exact ⟨x, hx', hp⟩

/-! ### Claim theorems: the diff line mapper -/

/-- C1: `isDuplicate` returns true iff some existing comment within
`lineProximity` of the candidate triggers an exact template match or one of
the three fuzzy thresholds (keyword overlap > 0.5, raw similarity > 0.6,
template similarity > 0.85); farther comments are skipped, and an empty
existing list always yields false.  (The source defaults `lineProximity`
to 5; the statement covers every proximity.) -/
theorem isDuplicateComment_spec (nc : ReviewComment) (ex : List ReviewComment) (prox : Nat) :
    (isDuplicateComment nc ex prox = true ↔
      ∃ e ∈ ex, (e.line - nc.line).natAbs ≤ prox ∧
        (extractCommentTemplate e.body = extractCommentTemplate nc.body
          ∨ calculateKeywordOverlap (extractKeywordsFromComment nc.body)
              (extractKeywordsFromComment e.body) > 0.5
          ∨ stringSimilarity nc.body e.body > 0.6
          ∨ stringSimilarity (extractCommentTemplate nc.body)
              (extractCommentTemplate e.body) > 0.85))
    ∧ isDuplicateComment nc [] prox = false :=
  ⟨isDuplicateComment_exists nc prox ex, rfl⟩

/-- C10: the boolean decision of `isDuplicate` is invariant under
permutation of the existing-comments sequence. -/
theorem isDuplicateComment_perm_invariant (nc : ReviewComment) (prox : Nat)
    (ex ex' : List ReviewComment) (h : List.Perm ex ex') :
    isDuplicateComment nc ex prox = isDuplicateComment nc ex' prox := by
  have hiff : isDuplicateComment nc ex prox = true ↔ isDuplicateComment nc ex' prox = true := by
    rw [isDuplicateComment_exists nc prox ex, isDuplicateComment_exists nc prox ex']
    constructor
    · rintro ⟨x, hx, hp⟩; exact ⟨x, h.mem_iff.mp hx, hp⟩
    · rintro ⟨x, hx, hp⟩; exact ⟨x, h.mem_iff.mpr hx, hp⟩
  cases hA : isDuplicateComment nc ex prox <;> cases hB : isDuplicateComment nc ex' prox <;>
    simp_all

/-- Witness for C10 at a concrete swapped pair of existing comments. -/
theorem isDuplicateComment_perm_invariant_witness :
    List.Perm [ReviewComment.mk 3 "check for null here", ReviewComment.mk 9 "rename this"]
      [ReviewComment.mk 9 "rename this", ReviewComment.mk 3 "check for null here"]
    ∧ isDuplicateComment ⟨2, "possible bug"⟩
        [ReviewComment.mk 3 "check for null here", ReviewComment.mk 9 "rename this"] 5
      = isDuplicateComment ⟨2, "possible bug"⟩
        [ReviewComment.mk 9 "rename this", ReviewComment.mk 3 "check for null here"] 5 :=
  ⟨List.Perm.swap _ _ _,
   isDuplicateComment_perm_invariant ⟨2, "possible bug"⟩ 5 _ _ (List.Perm.swap _ _ _)⟩

/-- C2: the commentable-line sequence is, hunk by hunk in file order, a
block of consecutive line numbers (one per added or context line of the
hunk's body); each block is strictly increasing, and a line number is only
produced when its hunk really contains an added (`+`) or context (space)
line. -/
theorem extractValidCommentLines_hunks (diff : String) :
    extractValidCommentLines diff = ((splitHunks (diffLines diff)).map hunkSeq).flatten
    ∧ (∀ p ∈ splitHunks (diffLines diff), List.Chain' (· < ·) (hunkSeq p))
    ∧ (∀ p ∈ splitHunks (diffLines diff), ∀ n ∈ hunkSeq p,
        ∃ l ∈ p.2, isCommentableLine l = true) := by
  refine ⟨?_, ?_, ?_⟩
  · by_cases hd : diff = ""
    · subst hd; rfl
    · rw [extractValidCommentLines, if_neg hd]
      exact extractLoop_none_hunks (diffLines diff).length (diffLines diff) le_rfl
  · intro p _
    exact chain'_lt_range' (countCommentable p.2) p.1
  · intro p _ n hn
    have hk : countCommentable p.2 ≠ 0 := by
      intro h0
      rw [hunkSeq, h0] at hn
      simp at hn
    have hne : p.2.filter isCommentableLine ≠ [] := by
      intro hnil
      exact hk (by simp [countCommentable, hnil])
    obtain ⟨x, hx⟩ := List.exists_mem_of_ne_nil _ hne
    have hmem := List.mem_filter.mp hx
    exact ⟨x, hmem.1, hmem.2⟩

/-- Witness for C2 on the example diff of the specification. -/
theorem extractValidCommentLines_hunks_witness :
    ((1, [" line1", "+line2", " line3", "-line4", " line5"]) ∈
        splitHunks (diffLines "@@ -1,3 +1,4 @@\n line1\n+line2\n line3\n-line4\n line5"))
    ∧ List.Chain' (· < ·) (hunkSeq (1, [" line1", "+line2", " line3", "-line4", " line5"]))
    ∧ 2 ∈ hunkSeq (1, [" line1", "+line2", " line3", "-line4", " line5"])
    ∧ ∃ l ∈ [" line1", "+line2", " line3", "-line4", " line5"], isCommentableLine l = true :=
  ⟨by decide,
   (extractValidCommentLines_hunks
       "@@ -1,3 +1,4 @@\n line1\n+line2\n line3\n-line4\n line5").2.1
     (1, [" line1", "+line2", " line3", "-line4", " line5"]) (by decide),
   by decide,
   (extractValidCommentLines_hunks
       "@@ -1,3 +1,4 @@\n line1\n+line2\n line3\n-line4\n line5").2.2
     (1, [" line1", "+line2", " line3", "-line4", " line5"]) (by decide) 2 (by decide)⟩

/-- C3 counterexample: after the valid header `@@ -1,1 +1,2 @@` sets the
cursor, the malformed header line `@@ bad` does NOT unset it: the context
line ` b` after it is still recorded (at line 2), so the result is `[1, 2]`
and not the `[1]` the claim implies. -/
theorem extractValidCommentLines_malformed_counterexample :
    extractValidCommentLines "@@ -1,1 +1,2 @@\n a\n@@ bad\n b" = [1, 2]
    ∧ extractValidCommentLines "@@ -1,1 +1,2 @@\n a\n@@ bad\n b" ≠ [1] := by
  exact ⟨by decide, by decide⟩

/-- C3 (amended): a malformed hunk-header line (starting with `@@` but not
matching the pattern) is skipped with the cursor left at its previous
value, so later added/context lines keep being recorded with the previous
hunk's cursor; lines are ignored only while the cursor has never been set
(no valid header seen yet). -/
theorem extractLoop_malformed_header_amended :
    (∀ (cur : Option Nat) (l : String) (ls : List String),
      strStartsWith l "@@" = true → hunkHeaderNewStart l = none →
      extractLoop cur (l :: ls) = extractLoop cur ls)
    ∧ (∀ (l : String) (ls : List String), strStartsWith l "@@" = false →
      extractLoop none (l :: ls) = extractLoop none ls) :=
  ⟨fun cur l ls h1 h2 => extractLoop_cons_header_none cur l ls h1 h2,
   fun l ls h => extractLoop_cons_content_none l ls h⟩

/-- Witness for the amended C3 at a concrete malformed header and a
concrete pre-header content line. -/
theorem extractLoop_malformed_header_amended_witness :
    (strStartsWith "@@ bad" "@@" = true ∧ hunkHeaderNewStart "@@ bad" = none
      ∧ extractLoop (some 7) ["@@ bad", " x"] = extractLoop (some 7) [" x"])
    ∧ (strStartsWith " x" "@@" = false
      ∧ extractLoop none [" x", "+y"] = extractLoop none ["+y"]) :=
  ⟨⟨by decide, by decide,
      extractLoop_malformed_header_amended.1 (some 7) "@@ bad" [" x"] (by decide) (by decide)⟩,
   ⟨by decide, extractLoop_malformed_header_amended.2 " x" ["+y"] (by decide)⟩⟩

/-- C4: on the diff `@@ -1,3 +1,4 @@` with lines ` line1`, `+line2`,
` line3`, `-line4`, ` line5`, the mapper returns exactly `[1, 2, 3, 4]`:
the removed line is neither recorded nor counted. -/
theorem extractValidCommentLines_example_diff :
    extractValidCommentLines "@@ -1,3 +1,4 @@\n line1\n+line2\n line3\n-line4\n line5"
      = [1, 2, 3, 4] := by
  decide

/-! ### Character-class facts -/

theorem isUpperAlpha_not_lower (c : Char) (h : isUpperAlpha c = true) :
    isLowerAlpha c = false := by
  by_contra hne
  have hl : isLowerAlpha c = true := by
    cases hv : isLowerAlpha c
    · exact absurd hv hne
    · rfl
  simp only [isUpperAlpha, Bool.and_eq_true, decide_eq_true_eq] at h
  simp only [isLowerAlpha, Bool.and_eq_true, decide_eq_true_eq] at hl
  exact absurd (le_trans hl.1 h.2) (by decide)

theorem isSnakeCh_isWordChar (c : Char) (h : isSnakeCh c = true) : isWordChar c = true := by
  simp only [isSnakeCh, Bool.or_eq_true, decide_eq_true_eq] at h
  rcases h with (h | h) | h
  · simp [isWordChar, isAsciiLetter, h]
  · simp [isWordChar, h]
  · subst h; decide

theorem isConstCh_isWordChar (c : Char) (h : isConstCh c = true) : isWordChar c = true := by
  simp only [isConstCh, Bool.or_eq_true, decide_eq_true_eq] at h
  rcases h with (h | h) | h
  · simp [isWordChar, isAsciiLetter, h]
  · simp [isWordChar, h]
  · subst h; decide

theorem isAsciiLetter_isWordChar (c : Char) (h : isAsciiLetter c = true) :
    isWordChar c = true := by
  simp [isWordChar, h]

theorem isAsciiLetter_not_space (c : Char) (h : isAsciiLetter c = true) :
    isJsSpace c = false := by
  cases hv : isJsSpace c
  · rfl
  · simp only [isJsSpace, Bool.or_eq_true, decide_eq_true_eq] at hv
    rcases hv with ((((rfl | rfl) | rfl) | rfl) | rfl) | rfl <;> exact absurd h (by decide)

theorem isWordChar_not_space (c : Char) (h : isWordChar c = true) : isJsSpace c = false := by
  cases hv : isJsSpace c
  · rfl
  · simp only [isJsSpace, Bool.or_eq_true, decide_eq_true_eq] at hv
    rcases hv with ((((rfl | rfl) | rfl) | rfl) | rfl) | rfl <;> exact absurd h (by decide)

theorem isWordChar_ne_dot (c : Char) (h : isWordChar c = true) : ¬ c = '.' := by
  intro heq
  subst heq
  exact absurd h (by decide)

/-! ### Template-token classification (claim C6) -/

theorem snake_imp_camel (s : String) (h : snakeCasePat s = true) : camelCasePat s = true := by
  unfold snakeCasePat at h
  unfold camelCasePat
  cases hd : s.data with
  | nil => rw [hd] at h; simp at h
  | cons c cs =>
    rw [hd] at h
    simp only [Bool.and_eq_true] at h
    obtain ⟨⟨h1, h2⟩, -⟩ := h
    simp only [Bool.and_eq_true]
    refine ⟨h1, ?_⟩
    rw [List.all_eq_true] at h2 ⊢
    exact fun x hx => isSnakeCh_isWordChar x (h2 x hx)

theorem const_imp_class (s : String) (h : constCasePat s = true) : classNamePat s = true := by
  unfold constCasePat at h
  unfold classNamePat
  cases hd : s.data with
  | nil => rw [hd] at h; simp at h
  | cons c cs =>
    rw [hd] at h
    simp only [Bool.and_eq_true] at h
    obtain ⟨h1, h2⟩ := h
    simp only [Bool.and_eq_true]
    refine ⟨h1, ?_⟩
    rw [List.all_eq_true] at h2 ⊢
    exact fun x hx => isConstCh_isWordChar x (h2 x hx)

theorem const_not_camel (s : String) (h : constCasePat s = true) : camelCasePat s = false := by
  unfold constCasePat at h
  unfold camelCasePat
  cases hd : s.data with
  | nil => simp [hd] at h
  | cons c cs =>
    rw [hd] at h
    simp only [Bool.and_eq_true] at h
    simp [isUpperAlpha_not_lower c h.1]

/-- C6 counterexample: `foo_bar` matches the snake_case pattern, is neither
a common word nor a keyword, yet templatizes to `{var}` and not
`{snake_var}`; likewise `MAX_SIZE` matches ALL_CAPS but becomes `{Class}`,
not `{CONST}`. -/
theorem extractCommentTemplate_snake_caps_counterexample :
    snakeCasePat "foo_bar" = true
    ∧ isCommonWord "foo_bar" = false ∧ isCodeKeyword "foo_bar" = false
    ∧ extractCommentTemplate "foo_bar" = "{var}"
    ∧ extractCommentTemplate "foo_bar" ≠ "{snake_var}"
    ∧ constCasePat "MAX_SIZE" = true
    ∧ isCommonWord "MAX_SIZE" = false ∧ isCodeKeyword "MAX_SIZE" = false
    ∧ extractCommentTemplate "MAX_SIZE" = "{Class}"
    ∧ extractCommentTemplate "MAX_SIZE" ≠ "{CONST}" := by
  refine ⟨by decide, by decide, by decide, by decide, by decide,
    by decide, by decide, by decide, by decide, by decide⟩

/-- C6 (amended): because the callback tests the lowerCamelCase and
UpperCamelCase patterns first, and those patterns subsume snake_case and
ALL_CAPS respectively, a non-common non-keyword snake_case token is
replaced with `{var}` and an ALL_CAPS token with `{Class}`; the
`{snake_var}` and `{CONST}` branches are unreachable. -/
theorem templateToken_snake_caps_amended :
    (∀ s : String, snakeCasePat s = true → isCommonWord s = false → isCodeKeyword s = false →
      templateToken s = "{var}")
    ∧ (∀ s : String, constCasePat s = true → isCommonWord s = false → isCodeKeyword s = false →
      templateToken s = "{Class}") := by
  constructor
  · intro s hs hc hk
    have hcam := snake_imp_camel s hs
    simp [templateToken, hc, hk, hcam]
  · intro s hs hc hk
    have hcl := const_imp_class s hs
    have hcamf := const_not_camel s hs
    simp [templateToken, hc, hk, hcamf, hcl]

/-- Witness for the amended C6 at the tokens `foo_bar` and `MAX_SIZE`. -/
theorem templateToken_snake_caps_amended_witness :
    (snakeCasePat "foo_bar" = true ∧ isCommonWord "foo_bar" = false
      ∧ isCodeKeyword "foo_bar" = false ∧ templateToken "foo_bar" = "{var}")
    ∧ (constCasePat "MAX_SIZE" = true ∧ isCommonWord "MAX_SIZE" = false
      ∧ isCodeKeyword "MAX_SIZE" = false ∧ templateToken "MAX_SIZE" = "{Class}") :=
  ⟨⟨by decide, by decide, by decide,
      templateToken_snake_caps_amended.1 "foo_bar" (by decide) (by decide) (by decide)⟩,
   ⟨by decide, by decide, by decide,
      templateToken_snake_caps_amended.2 "MAX_SIZE" (by decide) (by decide) (by decide)⟩⟩

/-! ### Keyword length rule (claim C8) -/

/-- C8 counterexample: the three-character word `api` does enter the
keyword set through the technical-vocabulary rule. -/
theorem extractKeywords_api_counterexample :
    "api" ∈ extractKeywordsFromComment "api"
    ∧ "api" ∈ technicalTermsOf "api"
    ∧ ("api" : String).length = 3 :=
  ⟨by decide, by decide, by decide⟩

/-- C8 (amended): every whole-word token added by the vocabulary/substring
rule has length strictly greater than 2 (the source filter is
`w.length > 2`, not `> 3`), so three-character words such as `api` do make
it into the keyword set. -/
theorem technicalTerms_length_amended :
    (∀ (s : String), ∀ w ∈ technicalTermsOf s, 2 < w.length)
    ∧ "api" ∈ extractKeywordsFromComment "api" := by
  constructor
  · intro s w hw
    have hw2 : w ∈ keywordCandidateWords s := List.mem_of_mem_filter hw
    have hlen := (List.mem_filter.mp hw2).2
    exact of_decide_eq_true hlen
  · decide

/-- Witness for the amended C8 at the comment `fix` (a 3-character word
admitted by the substring rule). -/
theorem technicalTerms_length_amended_witness :
    "fix" ∈ technicalTermsOf "fix" ∧ 2 < ("fix" : String).length :=
  ⟨by decide, technicalTerms_length_amended.1 "fix" "fix" (by decide)⟩

/-! ### The environment-variable pass never fires after the identifier pass
on a simple method call (claims C5 and C7) -/

theorem envVarMatchAt_none_of_no_lit (l : List Char)
    (h : chPrefix jsonLoadsLit l = false) : envVarMatchAt l = none := by
  simp [envVarMatchAt, h]

theorem envVarFires_false_of (l : List Char)
    (h : ∀ t, t <:+ l → chPrefix jsonLoadsLit t = false) : envVarFires l = false := by
  induction l with
  | nil => rfl
  | cons c cs ih =>
    simp only [envVarFires, Bool.or_eq_false_iff]
    constructor
    · rw [envVarMatchAt_none_of_no_lit _ (h (c :: cs) List.suffix_rfl)]
      rfl
    · exact ih (fun t ht => h t (ht.trans (List.suffix_cons c cs)))

theorem envVarPass_eq_self_of_not_fires (l : List Char) (h : envVarFires l = false) :
    envVarPass l = l := by
  induction l with
  | nil => rfl
  | cons c cs ih =>
    simp only [envVarFires, Bool.or_eq_false_iff] at h
    obtain ⟨h1, h2⟩ := h
    have hm : envVarMatchAt (c :: cs) = none := by
      cases hv : envVarMatchAt (c :: cs)
      · rfl
      · rw [hv] at h1; simp at h1
    simp only [envVarPass, hm]
    rw [ih h2]

theorem suffix_append_singleton (t nd : List Char) (x : Char) (h : t <:+ nd ++ [x]) :
    t = [] ∨ ∃ u, u <:+ nd ∧ t = u ++ [x] := by
  rcases h with ⟨q, hq⟩
  rcases List.eq_nil_or_concat t with rfl | ⟨t', y, rfl⟩
  · exact Or.inl rfl
  · right
    rw [List.concat_eq_append] at hq ⊢
    rw [← List.append_assoc] at hq
    have := List.append_inj' hq (by simp)
    obtain ⟨h1, h2⟩ := this
    injection h2 with hy _
    subst hy
    exact ⟨t', ⟨q, h1⟩, rfl⟩

theorem all_of_suffix (p : Char → Bool) (u l : List Char) (h : u <:+ l)
    (hall : l.all p = true) : u.all p = true := by
  rcases h with ⟨q, rfl⟩
  rw [List.all_append, Bool.and_eq_true] at hall
  exact hall.2

theorem chPrefix_json_wordrun_false (u : List Char) (hu : u.all isWordChar = true) :
    chPrefix jsonLoadsLit (u ++ ['(']) = false := by
  cases hv : chPrefix jsonLoadsLit (u ++ ['('])
  · rfl
  · exfalso
    obtain ⟨r, hr⟩ := (chPrefix_iff_append _ _).mp hv
    have hjson : jsonLoadsLit =
        ['j', 's', 'o', 'n', '.'] ++ ['l', 'o', 'a', 'd', 's', ' ', 'o', 'n', ' '] := rfl
    rw [hjson, List.append_assoc] at hr
    have hu5 : 5 ≤ u.length := by
      have hlen := congrArg List.length hr
      simp only [List.length_append, List.length_cons, List.length_nil] at hlen
      omega
    have htake : (u ++ ['(']).take 5 = u.take 5 := List.take_append_of_le_length hu5
    have htake2 : (u ++ ['(']).take 5 = ['j', 's', 'o', 'n', '.'] := by
      rw [hr]
      rw [List.take_append_of_le_length (by simp)]
      rfl
    have hdot : '.' ∈ u.take 5 := by
      rw [← htake, htake2]
      simp
    have hdotu : '.' ∈ u := List.take_subset 5 u hdot
    rw [List.all_eq_true] at hu
    exact absurd (hu '.' hdotu) (by decide)

theorem envVarFires_dot_name_paren (nd : List Char) (hall : nd.all isWordChar = true) :
    envVarFires ('.' :: nd ++ ['(']) = false := by
  apply envVarFires_false_of
  intro t ht
  rcases ht with ⟨pre, hpre⟩
  cases pre with
  | nil =>
    simp only [List.nil_append] at hpre
    subst hpre
    rfl
  | cons p pre' =>
    simp only [List.cons_append] at hpre
    injection hpre with _ hpre'
    have hsuf : t <:+ nd ++ ['('] := ⟨pre', hpre'⟩
    rcases suffix_append_singleton t nd '(' hsuf with rfl | ⟨u, hu, rfl⟩
    · rfl
    · exact chPrefix_json_wordrun_false u (all_of_suffix _ u nd hu hall)

/-! ### The passes on a simple method call `.name(` (claim C7) -/

theorem identifierPass_dot_name_paren (c : Char) (cs : List Char)
    (hall : (c :: cs).all isWordChar = true) :
    identifierPass ('.' :: (c :: cs) ++ ['(']) = '.' :: renderRun (c :: cs) ++ ['('] := by
  simp only [List.all_cons, Bool.and_eq_true] at hall
  rw [show ('.' :: (c :: cs) ++ ['(']) = '.' :: ((c :: cs) ++ ['(']) from rfl]
  rw [identifierPass_cons_not '.' _ (by decide)]
  rw [List.cons_append, identifierPass_cons_word c _ hall.1]
  rw [takeWhile_append_of_all _ _ _ hall.2, dropWhile_append_of_all _ _ _ hall.2]
  rw [show List.takeWhile isWordChar ['('] = [] from rfl,
      show List.dropWhile isWordChar ['('] = ['('] from rfl]
  rw [show identifierPass ['('] = ['('] from rfl]
  simp

theorem methodCallMatch_name_paren (c : Char) (cs : List Char)
    (hl : isAsciiLetter c = true) (hall : (c :: cs).all isWordChar = true) :
    methodCallMatch ((c :: cs) ++ ['(']) = some ("{method}".data ++ ['('], []) := by
  simp only [List.all_cons, Bool.and_eq_true] at hall
  have hds : ((c :: cs) ++ ['(']).dropWhile isJsSpace = c :: (cs ++ ['(']) := by
    rw [List.cons_append]
    exact dropWhile_eq_self_of_head _ _ (by
      intro b hb
      simp only [List.head?_cons, Option.some.injEq] at hb
      subst hb
      exact isAsciiLetter_not_space c hl)
  have hdw : (cs ++ ['(']).dropWhile isWordChar = ['('] := by
    rw [dropWhile_append_of_all _ _ _ hall.2]
    rfl
  have hts : ((c :: cs) ++ ['(']).takeWhile isJsSpace = [] := by
    rw [List.cons_append]
    exact takeWhile_eq_nil_of_head _ _ (by
      intro b hb
      simp only [List.head?_cons, Option.some.injEq] at hb
      subst hb
      exact isAsciiLetter_not_space c hl)
  unfold methodCallMatch
  rw [hds]
  simp only [hl, if_true, hdw]
  rw [show List.dropWhile isJsSpace ['('] = ['('] from rfl]
  simp only [hts]
  rw [show List.takeWhile isJsSpace ['('] = [] from rfl]
  simp

theorem methodCallPass_dot_name_paren (c : Char) (cs : List Char)
    (hl : isAsciiLetter c = true) (hall : (c :: cs).all isWordChar = true) :
    methodCallPass ('.' :: (c :: cs) ++ ['(']) = '.' :: "{method}".data ++ ['('] := by
  rw [show ('.' :: (c :: cs) ++ ['(']) = '.' :: ((c :: cs) ++ ['(']) from rfl]
  rw [methodCallPass_cons_dot_some _ _ _ (methodCallMatch_name_paren c cs hl hall)]
  rw [methodCallPass_nil]
  simp

/-- C7 counterexample: the identifier pass substitutes the method name
first, so `.foo(` templatizes to `.{var}(` and not to `.{method}(`. -/
theorem extractCommentTemplate_method_counterexample :
    extractCommentTemplate ".foo(" = ".{var}("
    ∧ extractCommentTemplate ".foo(" ≠ ".{method}(" :=
  ⟨by decide, by decide⟩

/-- C7 (amended): only a method name that survives the identifier pass — a
common English word or a language keyword, such as `get` — is replaced with
`{method}` by the later method-call pass; any other (camelCase) method name
has already been replaced by the identifier pass, so `.name(` becomes
`.{var}(` and the method-call rule does not fire on it. -/
theorem extractCommentTemplate_method_amended :
    (∀ (c : Char) (cs : List Char), isAsciiLetter c = true →
      (c :: cs).all isWordChar = true →
      isCommonWord (String.mk (c :: cs)) = true ∨ isCodeKeyword (String.mk (c :: cs)) = true →
      extractCommentTemplate (String.mk ('.' :: (c :: cs) ++ ['('])) = ".{method}(")
    ∧ (∀ (c : Char) (cs : List Char),
      (c :: cs).all isWordChar = true →
      camelCasePat (String.mk (c :: cs)) = true →
      isCommonWord (String.mk (c :: cs)) = false → isCodeKeyword (String.mk (c :: cs)) = false →
      extractCommentTemplate (String.mk ('.' :: (c :: cs) ++ ['('])) = ".{var}(") := by
  constructor
  · intro c cs hl hall hkept
    have hrender : renderRun (c :: cs) = c :: cs := by
      simp only [renderRun, hl, if_true]
      rcases hkept with hk | hk
      · simp [templateToken, hk]
      · by_cases hc : isCommonWord (String.mk (c :: cs)) = true
        · simp [templateToken, hc]
        · simp [templateToken, hc, hk]
    unfold extractCommentTemplate
    rw [show (String.mk ('.' :: (c :: cs) ++ ['('])).data = '.' :: (c :: cs) ++ ['('] from rfl]
    rw [identifierPass_dot_name_paren c cs hall, hrender]
    rw [envVarPass_eq_self_of_not_fires _ (envVarFires_dot_name_paren (c :: cs) hall)]
    rw [methodCallPass_dot_name_paren c cs hl hall]
    rfl
  · intro c cs hall hcam hcw hkw
    have hl : isAsciiLetter c = true := by
      unfold camelCasePat at hcam
      rw [show (String.mk (c :: cs)).data = c :: cs from rfl] at hcam
      simp only [Bool.and_eq_true] at hcam
      simp [isAsciiLetter, hcam.1]
    have hrender : renderRun (c :: cs) = "{var}".data := by
      simp only [renderRun, hl, if_true]
      simp [templateToken, hcw, hkw, hcam]
    unfold extractCommentTemplate
    rw [show (String.mk ('.' :: (c :: cs) ++ ['('])).data = '.' :: (c :: cs) ++ ['('] from rfl]
    rw [identifierPass_dot_name_paren c cs hall, hrender]
    rw [show ('.' :: "{var}".data ++ ['(']) = (".{var}(" : String).data from rfl]
    rw [show envVarPass (".{var}(" : String).data = (".{var}(" : String).data from rfl]
    rw [show methodCallPass (".{var}(" : String).data = (".{var}(" : String).data from by decide]

/-- Witness for the amended C7 at the kept method name `get` and the
substituted method name `foo`. -/
theorem extractCommentTemplate_method_amended_witness :
    (isAsciiLetter 'g' = true ∧ ('g' :: ['e', 't']).all isWordChar = true
      ∧ isCodeKeyword (String.mk ('g' :: ['e', 't'])) = true
      ∧ extractCommentTemplate (String.mk ('.' :: ('g' :: ['e', 't']) ++ ['('])) = ".{method}(")
    ∧ (('f' :: ['o', 'o']).all isWordChar = true
      ∧ camelCasePat (String.mk ('f' :: ['o', 'o'])) = true
      ∧ isCommonWord (String.mk ('f' :: ['o', 'o'])) = false
      ∧ isCodeKeyword (String.mk ('f' :: ['o', 'o'])) = false
      ∧ extractCommentTemplate (String.mk ('.' :: ('f' :: ['o', 'o']) ++ ['('])) = ".{var}(") :=
  ⟨⟨by decide, by decide, by decide,
      extractCommentTemplate_method_amended.1 'g' ['e', 't'] (by decide) (by decide)
        (Or.inr (by decide))⟩,
   ⟨by decide, by decide, by decide, by decide,
      extractCommentTemplate_method_amended.2 'f' ['o', 'o'] (by decide) (by decide)
        (by decide) (by decide)⟩⟩

/-! ### Idempotence machinery for the identifier pass (claim C5) -/

theorem getLast?_all_word (l : List Char) (hne : l ≠ []) (hall : l.all isWordChar = true) :
    ∃ a, l.getLast? = some a ∧ isWordChar a = true := by
  induction l with
  | nil => exact absurd rfl hne
  | cons c cs ih =>
    simp only [List.all_cons, Bool.and_eq_true] at hall
    cases cs with
    | nil => exact ⟨c, rfl, hall.1⟩
    | cons d ds =>
      obtain ⟨a, ha, hw⟩ := ih (by simp) hall.2
      refine ⟨a, ?_, hw⟩
      rw [getLast?_cons_of_ne_nil c (d :: ds) (by simp)]
      exact ha

theorem length_dropWhile_lt_succ (p : Char → Bool) (l : List Char) :
    (l.dropWhile p).length < l.length + 1 := Nat.lt_succ_of_le (length_dropWhile_le p l)

/-- The identifier pass distributes over an append when no word run crosses
the boundary. -/
theorem identifierPass_append : ∀ (A B : List Char),
    ((∀ a, A.getLast? = some a → isWordChar a = false)
       ∨ (∀ b, B.head? = some b → isWordChar b = false)) →
    identifierPass (A ++ B) = identifierPass A ++ identifierPass B
  | [], _, _ => by simp [identifierPass_nil]
  | c :: A', B, h => by
    cases hw : isWordChar c with
    | false =>
      rw [List.cons_append, identifierPass_cons_not c _ hw, identifierPass_cons_not c A' hw]
      rw [identifierPass_append A' B ?_]
      · simp
      · rcases h with hA | hB
        · left
          intro a ha
          cases A' with
          | nil => simp at ha
          | cons d ds =>
            apply hA
            rw [getLast?_cons_of_ne_nil c (d :: ds) (by simp)]
            exact ha
        · exact Or.inr hB
    | true =>
      by_cases hall : A'.all isWordChar = true
      · have hB : ∀ b, B.head? = some b → isWordChar b = false := by
          rcases h with hA | hB
          · exfalso
            obtain ⟨a, ha, haw⟩ := getLast?_all_word (c :: A') (by simp)
              (by simp [hw, hall])
            exact absurd haw (by simp [hA a ha])
          · exact hB
        rw [List.cons_append, identifierPass_cons_word c _ hw]
        rw [takeWhile_append_of_all _ _ _ hall, dropWhile_append_of_all _ _ _ hall]
        rw [takeWhile_eq_nil_of_head _ _ hB, dropWhile_eq_self_of_head _ _ hB]
        rw [identifierPass_cons_word c A' hw, takeWhile_eq_self_of_all _ _ hall,
            dropWhile_eq_nil_of_all _ _ hall, identifierPass_nil]
        simp
      · rw [List.cons_append, identifierPass_cons_word c _ hw]
        rw [takeWhile_append_of_not_all _ _ _ hall, dropWhile_append_of_not_all _ _ _ hall]
        rw [identifierPass_append (A'.dropWhile isWordChar) B ?_]
        · rw [identifierPass_cons_word c A' hw]
          simp [List.append_assoc]
        · rcases h with hA | hB
          · left
            intro a ha
            have hnn : A'.dropWhile isWordChar ≠ [] := dropWhile_ne_nil_of_not_all _ _ hall
            rw [getLast?_dropWhile _ _ hnn] at ha
            apply hA
            have hA'ne : A' ≠ [] := by
              intro hx
              rw [hx] at hnn
              simp [List.dropWhile] at hnn
            rw [getLast?_cons_of_ne_nil c A' hA'ne]
            exact ha
          · exact Or.inr hB
termination_by A _ _ => A.length
decreasing_by
  all_goals try simp only [List.length_cons]
  all_goals first
    | omega
    | exact length_dropWhile_lt_succ isWordChar _

theorem identifierPass_all_word (r : List Char) (hall : r.all isWordChar = true) :
    identifierPass r = renderRun r := by
  cases r with
  | nil => rfl
  | cons c cs =>
    simp only [List.all_cons, Bool.and_eq_true] at hall
    rw [identifierPass_cons_word c cs hall.1, takeWhile_eq_self_of_all _ _ hall.2,
        dropWhile_eq_nil_of_all _ _ hall.2, identifierPass_nil]
    simp

theorem letter_run_pat (c : Char) (cs : List Char) (hl : isAsciiLetter c = true)
    (hall : cs.all isWordChar = true) :
    camelCasePat (String.mk (c :: cs)) = true
    ∨ (camelCasePat (String.mk (c :: cs)) = false
        ∧ classNamePat (String.mk (c :: cs)) = true) := by
  have hdata : (String.mk (c :: cs)).data = c :: cs := rfl
  simp only [isAsciiLetter, Bool.or_eq_true] at hl
  rcases hl with h | h
  · left
    unfold camelCasePat
    rw [hdata]
    simp [h, hall]
  · right
    constructor
    · unfold camelCasePat
      rw [hdata]
      simp [isUpperAlpha_not_lower c h]
    · unfold classNamePat
      rw [hdata]
      simp [h, hall]

/-- Every possible output of the run renderer is left unchanged by a second
identifier pass. -/
theorem renderRun_stable (r : List Char) (hne : r ≠ []) (hall : r.all isWordChar = true) :
    identifierPass (renderRun r) = renderRun r := by
  cases r with
  | nil => exact absurd rfl hne
  | cons c cs =>
    have hallcs : cs.all isWordChar = true := by
      simp only [List.all_cons, Bool.and_eq_true] at hall
      exact hall.2
    have hwc : isWordChar c = true := by
      simp only [List.all_cons, Bool.and_eq_true] at hall
      exact hall.1
    cases hl : isAsciiLetter c with
    | false =>
      have hr : renderRun (c :: cs) = c :: cs := by simp [renderRun, hl]
      rw [hr, identifierPass_all_word (c :: cs) hall, hr]
    | true =>
      simp only [renderRun, hl, if_true]
      by_cases hc : isCommonWord (String.mk (c :: cs)) = true
      · rw [show templateToken (String.mk (c :: cs)) = String.mk (c :: cs) from by
          simp [templateToken, hc]]
        rw [show (String.mk (c :: cs)).data = c :: cs from rfl]
        rw [identifierPass_all_word _ hall]
        simp [renderRun, hl, templateToken, hc]
      · by_cases hk : isCodeKeyword (String.mk (c :: cs)) = true
        · rw [show templateToken (String.mk (c :: cs)) = String.mk (c :: cs) from by
            simp [templateToken, hc, hk]]
          rw [show (String.mk (c :: cs)).data = c :: cs from rfl]
          rw [identifierPass_all_word _ hall]
          simp [renderRun, hl, templateToken, hc, hk]
        · rcases letter_run_pat c cs hl hallcs with hp | ⟨hp1, hp2⟩
          · rw [show templateToken (String.mk (c :: cs)) = "{var}" from by
              simp [templateToken, hc, hk, hp]]
            decide
          · rw [show templateToken (String.mk (c :: cs)) = "{Class}" from by
              simp [templateToken, hc, hk, hp1, hp2]]
            decide

/-- The identifier pass is idempotent. -/
theorem identifierPass_idem : ∀ (l : List Char),
    identifierPass (identifierPass l) = identifierPass l
  | [] => by simp [identifierPass_nil]
  | c :: cs => by
    cases hw : isWordChar c with
    | false =>
      rw [identifierPass_cons_not c cs hw, identifierPass_cons_not c _ hw,
        identifierPass_idem cs]
    | true =>
      rw [identifierPass_cons_word c cs hw]
      have hrall : (c :: cs.takeWhile isWordChar).all isWordChar = true := by
        simp [hw, takeWhile_all]
      have hB : ∀ b, (identifierPass (cs.dropWhile isWordChar)).head? = some b →
          isWordChar b = false := by
        intro b hb
        cases hdw : cs.dropWhile isWordChar with
        | nil => rw [hdw, identifierPass_nil] at hb; simp at hb
        | cons d ds =>
          have hd : isWordChar d = false := head_not_of_dropWhile isWordChar cs d ds hdw
          rw [hdw, identifierPass_cons_not d ds hd] at hb
          simp only [List.head?_cons, Option.some.injEq] at hb
          rw [hb] at hd
          exact hd
      rw [identifierPass_append (renderRun (c :: cs.takeWhile isWordChar))
        (identifierPass (cs.dropWhile isWordChar)) (Or.inr hB)]
      rw [renderRun_stable _ (by simp) hrall]
      rw [identifierPass_idem (cs.dropWhile isWordChar)]
termination_by l => l.length
decreasing_by
  all_goals try simp only [List.length_cons]
  all_goals first
    | omega
    | exact length_dropWhile_lt_succ isWordChar _

/-! ### When passes 2 and 3 leave their input unchanged (claim C5) -/

theorem methodCallMatch_out_shape (cs out rest : List Char)
    (h : methodCallMatch cs = some (out, rest)) :
    ∃ w1 w2, out = w1 ++ ("{method}" : String).data ++ w2 := by
  unfold methodCallMatch at h
  split at h
  case _ c' cs2 heq =>
    split at h
    · split at h
      case _ rest' heq2 =>
        simp only [Option.some.injEq, Prod.mk.injEq] at h
        obtain ⟨hout, -⟩ := h
        refine ⟨cs.takeWhile isJsSpace,
          (cs2.dropWhile isWordChar).takeWhile isJsSpace ++ ['('], ?_⟩
        rw [← hout]
        simp [List.append_assoc]
      case _ => exact absurd h (by simp)
    · exact absurd h (by simp)
  case _ => exact absurd h (by simp)

theorem methodCallPassF_no_method (fuel : Nat) : ∀ (l : List Char), l.length ≤ fuel →
    listHasSub ("{method}" : String).data (methodCallPassF fuel l) = false →
    methodCallPassF fuel l = l := by
  induction fuel with
  | zero =>
    intro l hlen _
    have hl : l = [] := List.eq_nil_of_length_eq_zero (Nat.le_zero.mp hlen)
    subst hl
    rfl
  | succ f ih =>
    intro l hlen hsub
    cases l with
    | nil => rfl
    | cons c cs =>
      simp only [List.length_cons, Nat.succ_le_succ_iff] at hlen
      by_cases hc : c = '.'
      · subst hc
        cases hm : methodCallMatch cs with
        | none =>
          have heq : methodCallPassF (f + 1) ('.' :: cs) = '.' :: methodCallPassF f cs := by
            simp [methodCallPassF, hm]
          rw [heq] at hsub ⊢
          rw [ih cs hlen (listHasSub_tail_false _ _ _ hsub)]
        | some pr =>
          obtain ⟨out, rest⟩ := pr
          exfalso
          have heq : methodCallPassF (f + 1) ('.' :: cs)
              = '.' :: out ++ methodCallPassF f rest := by
            simp [methodCallPassF, hm]
          rw [heq] at hsub
          obtain ⟨w1, w2, hout⟩ := methodCallMatch_out_shape cs out rest hm
          rw [hout] at hsub
          have hfound := listHasSub_of_parts ("{method}" : String).data ('.' :: w1)
            (w2 ++ methodCallPassF f rest)
          rw [show ('.' :: w1) ++ ("{method}" : String).data ++ (w2 ++ methodCallPassF f rest)
              = '.' :: (w1 ++ ("{method}" : String).data ++ w2) ++ methodCallPassF f rest from by
            simp [List.append_assoc]] at hfound
          rw [hsub] at hfound
          exact Bool.false_ne_true hfound
      · have heq : methodCallPassF (f + 1) (c :: cs) = c :: methodCallPassF f cs := by
          simp [methodCallPassF, hc]
        rw [heq] at hsub ⊢
        rw [ih cs hlen (listHasSub_tail_false _ _ _ hsub)]

theorem methodCallPass_no_method (l : List Char)
    (h : listHasSub ("{method}" : String).data (methodCallPass l) = false) :
    methodCallPass l = l :=
  methodCallPassF_no_method l.length l le_rfl h

theorem envVarMatchAt_out_shape (l out : List Char) (h : envVarMatchAt l = some out) :
    ∃ t, out = jsonLoadsLit ++ ("{ENV_VAR}" : String).data ++ t := by
  unfold envVarMatchAt at h
  split at h
  · split at h
    · split at h
      · simp only [Option.some.injEq] at h
        exact ⟨_, h.symm⟩
      · exact absurd h (by simp)
    · exact absurd h (by simp)
  · exact absurd h (by simp)

theorem envVarPass_no_envvar (l : List Char)
    (h : listHasSub ("{ENV_VAR}" : String).data (envVarPass l) = false) :
    envVarPass l = l := by
  induction l with
  | nil => rfl
  | cons c cs ih =>
    cases hm : envVarMatchAt (c :: cs) with
    | some out =>
      exfalso
      obtain ⟨t, rfl⟩ := envVarMatchAt_out_shape (c :: cs) out hm
      have heq : envVarPass (c :: cs)
          = jsonLoadsLit ++ ("{ENV_VAR}" : String).data ++ t := by
        simp [envVarPass, hm]
      rw [heq] at h
      have hfound := listHasSub_of_parts ("{ENV_VAR}" : String).data jsonLoadsLit t
      rw [h] at hfound
      exact Bool.false_ne_true hfound
    | none =>
      have heq : envVarPass (c :: cs) = c :: envVarPass cs := by simp [envVarPass, hm]
      rw [heq] at h ⊢
      rw [ih (listHasSub_tail_false _ _ _ h)]

/-- C5 counterexample: templatizing `.get(` yields `.{method}(`, but a
second application substitutes the placeholder name `method` (a camelCase
token that is neither a common word nor a keyword) and produces a different
string, so `templatize` is not idempotent. -/
theorem extractCommentTemplate_not_idempotent :
    extractCommentTemplate ".get(" = ".{method}("
    ∧ extractCommentTemplate (extractCommentTemplate ".get(") = ".\x7b\x7bvar\x7d\x7d("
    ∧ extractCommentTemplate (extractCommentTemplate ".get(")
        ≠ extractCommentTemplate ".get(" :=
  ⟨by decide, by decide, by decide⟩

/-- C5 (amended): `templatize` is idempotent on every input whose template
contains no `{method}` placeholder, no `{ENV_VAR}` placeholder, and no
occurrence of the `json.loads on CAPS` pattern — exactly the texts that a
second application would rewrite again.  (The counterexample shows the
restriction is necessary: `{method}` placeholders are re-substituted.) -/
theorem extractCommentTemplate_idempotent_amended (s : String)
    (h1 : strHasSub (extractCommentTemplate s) "{method}" = false)
    (h2 : strHasSub (extractCommentTemplate s) "{ENV_VAR}" = false)
    (h3 : envVarFires (extractCommentTemplate s).data = false) :
    extractCommentTemplate (extractCommentTemplate s) = extractCommentTemplate s := by
  have hT : (extractCommentTemplate s).data
      = methodCallPass (envVarPass (identifierPass s.data)) := rfl
  have hstep1 : methodCallPass (envVarPass (identifierPass s.data))
      = envVarPass (identifierPass s.data) := by
    apply methodCallPass_no_method
    rw [← hT]
    exact h1
  have hstep2 : envVarPass (identifierPass s.data) = identifierPass s.data := by
    apply envVarPass_no_envvar
    rw [← hstep1, ← hT]
    exact h2
  have hTeq : (extractCommentTemplate s).data = identifierPass s.data := by
    rw [hT, hstep1, hstep2]
  have hid : identifierPass (extractCommentTemplate s).data = (extractCommentTemplate s).data := by
    rw [hTeq]
    exact identifierPass_idem s.data
  have henv : envVarPass (extractCommentTemplate s).data = (extractCommentTemplate s).data :=
    envVarPass_eq_self_of_not_fires _ h3
  have hmeth : methodCallPass (extractCommentTemplate s).data
      = (extractCommentTemplate s).data := by
    rw [hTeq, ← hstep2]
    exact hstep1
  show String.mk (methodCallPass (envVarPass (identifierPass (extractCommentTemplate s).data)))
      = extractCommentTemplate s
  rw [hid, henv, hmeth]

/-- Witness for the amended C5 on a typical review comment whose template
contains none of the re-substituted patterns. -/
theorem extractCommentTemplate_idempotent_amended_witness :
    (strHasSub (extractCommentTemplate "Unused variable fooBar should be removed") "{method}"
        = false
      ∧ strHasSub (extractCommentTemplate "Unused variable fooBar should be removed") "{ENV_VAR}"
        = false
      ∧ envVarFires (extractCommentTemplate "Unused variable fooBar should be removed").data
        = false)
    ∧ extractCommentTemplate
        (extractCommentTemplate "Unused variable fooBar should be removed")
      = extractCommentTemplate "Unused variable fooBar should be removed" :=
  ⟨⟨by decide, by decide, by decide⟩,
   extractCommentTemplate_idempotent_amended "Unused variable fooBar should be removed"
     (by decide) (by decide) (by decide)⟩

/-! ### Empty bodies and normalization (claim C9) -/

theorem stringMk_eq_empty_iff (l : List Char) : String.mk l = "" ↔ l = [] := by
  constructor
  · intro h
    have := congrArg String.data h
    simpa using this
  · intro h
    subst h
    rfl

theorem all_of_dropWhile_all (p : Char → Bool) (l : List Char)
    (h : (l.dropWhile p).all p = true) : l.all p = true := by
  have hsplit : l.takeWhile p ++ l.dropWhile p = l := List.takeWhile_append_dropWhile p l
  rw [← hsplit, List.all_append, Bool.and_eq_true]
  exact ⟨takeWhile_all p l, h⟩

theorem jsTrim_eq_nil_iff (l : List Char) : jsTrim l = [] ↔ l.all isJsSpace = true := by
  unfold jsTrim
  rw [List.reverse_eq_nil_iff, List.dropWhile_eq_nil_iff]
  constructor
  · intro h
    apply all_of_dropWhile_all
    rw [List.all_eq_true]
    intro x hx
    exact h x (by simpa using hx)
  · intro h x hx
    rw [List.mem_reverse] at hx
    have hx' : x ∈ l := by
      have hsplit : l.takeWhile isJsSpace ++ l.dropWhile isJsSpace = l :=
        List.takeWhile_append_dropWhile isJsSpace l
      rw [← hsplit]
      exact List.mem_append_right _ hx
    rw [List.all_eq_true] at h
    exact h x hx'

theorem solid_space_spec (c : Char) :
    isJsSpace (if isPunctCh (charLower c) then ' ' else charLower c) = !(solidCh c) := by
  cases hp : isPunctCh (charLower c) with
  | true => simp [hp, solidCh, isJsSpace]
  | false => simp [hp, solidCh]

theorem normalizeStr_eq_empty_iff (s : String) :
    normalizeStr s = "" ↔ s.data.any solidCh = false := by
  unfold normalizeStr
  rw [stringMk_eq_empty_iff, jsTrim_eq_nil_iff, List.all_map, List.all_map]
  rw [show ((isJsSpace ∘ fun c => if isPunctCh c = true then ' ' else c) ∘ charLower)
      = fun c => !(solidCh c) from funext fun c => solid_space_spec c]
  rw [List.all_eq_true, List.any_eq_false]
  constructor
  · intro h x hx
    simpa using h x hx
  · intro h x hx
    simpa using h x hx

theorem renderRun_any_solid (r : List Char) (h : r.any solidCh = true) :
    (renderRun r).any solidCh = true := by
  cases r with
  | nil => simp at h
  | cons c cs =>
    cases hl : isAsciiLetter c with
    | false => simpa [renderRun, hl] using h
    | true =>
      simp only [renderRun, hl, if_true]
      unfold templateToken
      split_ifs with h1 h2 h3 h4 h5 h6
      · exact h
      · exact h
      · decide
      · decide
      · decide
      · decide
      · exact h

theorem identifierPass_any_solid : ∀ (l : List Char),
    l.any solidCh = true → (identifierPass l).any solidCh = true
  | [] => by simp [identifierPass_nil]
  | c :: cs => by
    intro h
    cases hw : isWordChar c with
    | false =>
      rw [identifierPass_cons_not c cs hw]
      simp only [List.any_cons, Bool.or_eq_true] at h ⊢
      rcases h with h | h
      · exact Or.inl h
      · exact Or.inr (identifierPass_any_solid cs h)
    | true =>
      rw [identifierPass_cons_word c cs hw]
      have hsplit : (c :: cs.takeWhile isWordChar) ++ cs.dropWhile isWordChar = c :: cs := by
        rw [List.cons_append, List.takeWhile_append_dropWhile]
      rw [← hsplit, List.any_append, Bool.or_eq_true] at h
      rw [List.any_append, Bool.or_eq_true]
      rcases h with h | h
      · exact Or.inl (renderRun_any_solid _ h)
      · exact Or.inr (identifierPass_any_solid (cs.dropWhile isWordChar) h)
termination_by l => l.length
decreasing_by
  all_goals try simp only [List.length_cons]
  all_goals first
    | omega
    | exact length_dropWhile_lt_succ isWordChar _

theorem envVarPass_any_solid (l : List Char) (h : l.any solidCh = true) :
    (envVarPass l).any solidCh = true := by
  induction l with
  | nil => simp at h
  | cons c cs ih =>
    cases hm : envVarMatchAt (c :: cs) with
    | some out =>
      obtain ⟨t, rfl⟩ := envVarMatchAt_out_shape (c :: cs) out hm
      rw [show envVarPass (c :: cs) = jsonLoadsLit ++ ("{ENV_VAR}" : String).data ++ t from by
        simp [envVarPass, hm]]
      rw [List.any_append, List.any_append]
      have hj : jsonLoadsLit.any solidCh = true := by decide
      simp [hj]
    | none =>
      rw [show envVarPass (c :: cs) = c :: envVarPass cs from by simp [envVarPass, hm]]
      simp only [List.any_cons, Bool.or_eq_true] at h ⊢
      rcases h with h | h
      · exact Or.inl h
      · exact Or.inr (ih h)

theorem methodCallPassF_any_solid (fuel : Nat) : ∀ (l : List Char), l.length ≤ fuel →
    l.any solidCh = true → (methodCallPassF fuel l).any solidCh = true := by
  induction fuel with
  | zero =>
    intro l hlen h
    have hl : l = [] := List.eq_nil_of_length_eq_zero (Nat.le_zero.mp hlen)
    subst hl
    simp at h
  | succ f ih =>
    intro l hlen h
    cases l with
    | nil => simp at h
    | cons c cs =>
      simp only [List.length_cons, Nat.succ_le_succ_iff] at hlen
      by_cases hc : c = '.'
      · subst hc
        cases hm : methodCallMatch cs with
        | none =>
          rw [show methodCallPassF (f + 1) ('.' :: cs) = '.' :: methodCallPassF f cs from by
            simp [methodCallPassF, hm]]
          simp only [List.any_cons, Bool.or_eq_true] at h ⊢
          rcases h with h | h
          · exact Or.inl h
          · exact Or.inr (ih cs hlen h)
        | some pr =>
          obtain ⟨out, rest⟩ := pr
          rw [show methodCallPassF (f + 1) ('.' :: cs) = '.' :: out ++ methodCallPassF f rest
            from by simp [methodCallPassF, hm]]
          obtain ⟨w1, w2, rfl⟩ := methodCallMatch_out_shape cs _ rest hm
          have hmem : 'm' ∈ ('.' :: (w1 ++ ("{method}" : String).data ++ w2)
              ++ methodCallPassF f rest) := by
            apply List.mem_cons_of_mem
            apply List.mem_append_left
            apply List.mem_append_left
            apply List.mem_append_right
            decide
          exact List.any_eq_true.mpr ⟨'m', hmem, by decide⟩
      · rw [show methodCallPassF (f + 1) (c :: cs) = c :: methodCallPassF f cs from by
          simp [methodCallPassF, hc]]
        simp only [List.any_cons, Bool.or_eq_true] at h ⊢
        rcases h with h | h
        · exact Or.inl h
        · exact Or.inr (ih cs hlen h)

theorem template_preserves_nonempty_normalize (b : String) (h : normalizeStr b ≠ "") :
    normalizeStr (extractCommentTemplate b) ≠ "" := by
  rw [Ne, normalizeStr_eq_empty_iff] at h ⊢
  have hb : b.data.any solidCh = true := by
    cases hv : b.data.any solidCh
    · exact absurd hv h
    · rfl
  have hout : (extractCommentTemplate b).data.any solidCh = true := by
    rw [show (extractCommentTemplate b).data
        = methodCallPass (envVarPass (identifierPass b.data)) from rfl]
    exact methodCallPassF_any_solid _ _ le_rfl
      (envVarPass_any_solid _ (identifierPass_any_solid _ hb))
  simp [hout]

theorem range_getLastD (n : Nat) : (List.range (n + 1)).getLastD 0 = n := by
  rw [List.range_succ, List.getLastD_eq_getLast?, List.getLast?_concat]
  rfl

theorem levenshteinDistance_empty_left (t : String) : levenshteinDistance "" t = t.length := by
  unfold levenshteinDistance
  simp only [show ("" : String).data = [] from rfl, List.foldl_nil]
  exact range_getLastD t.length

theorem eq_empty_of_data_eq_nil (s : String) (h : s.data = []) : s = "" := by
  have heta : String.mk s.data = String.mk [] := by rw [h]
  exact heta

theorem string_length_pos (s : String) (h : s ≠ "") : 0 < s.length := by
  cases hd : s.data with
  | nil => exact absurd (eq_empty_of_data_eq_nil s hd) h
  | cons c cs =>
    have hl : s.length = s.data.length := rfl
    rw [hl, hd]
    simp

theorem stringSimilarity_empty_left (b : String) (h : normalizeStr b ≠ "") :
    stringSimilarity "" b = 0 := by
  unfold stringSimilarity
  rw [show normalizeStr "" = "" from rfl]
  by_cases h20 : ((("" : String).length : Int) - ((normalizeStr b).length : Int)).natAbs > 20
  · rw [if_pos h20]
    unfold wordBasedSimilarity
    rw [show ((jsSplitRuns isJsSpace ("" : String).data).map String.mk).filter
        (fun w => decide (w.length > 2)) = [] from rfl]
    simp
  · rw [if_neg h20, levenshteinDistance_empty_left]
    have hpos : 0 < (normalizeStr b).length := string_length_pos _ h
    rw [show ("" : String).length = 0 from rfl]
    rw [if_neg (by omega : ¬ max 0 (normalizeStr b).length = 0)]
    rw [show max 0 (normalizeStr b).length = (normalizeStr b).length from by omega]
    have hne : (((normalizeStr b).length : Int) : ℚ) ≠ 0 := by
      simp only [Int.cast_natCast, ne_eq, Nat.cast_eq_zero]
      omega
    rw [Rat.mkRat_eq_div]
    rw [show ((((normalizeStr b).length : Nat) : Int) : ℚ) / (((normalizeStr b).length : Nat) : ℚ)
        = ((((normalizeStr b).length : Nat) : Int) : ℚ)
          / ((((normalizeStr b).length : Nat) : Int) : ℚ) from by norm_cast]
    rw [div_self hne, sub_self]

/-- C9 counterexample: a candidate with empty body IS declared a duplicate
of a nearby existing comment whose body is the non-empty string `...`: both
bodies normalize to the empty string, so the Levenshtein similarity is 1,
which exceeds the 0.6 threshold. -/
theorem isDuplicateComment_empty_body_counterexample :
    isDuplicateComment ⟨1, ""⟩ [⟨1, "...", ⟩] 5 = true
    ∧ ("..." : String) ≠ ""
    ∧ stringSimilarity "" "..." = 1 :=
  ⟨by decide, by decide, by decide⟩

/-- C9 (amended): an empty-bodied candidate never matches an existing
comment whose body NORMALIZES (lowercasing, punctuation to spaces, trim) to
a non-empty string: the keyword overlap is 0 (empty keyword set) and both
similarity scores are 0.  When a nearby body normalizes to the empty string
(e.g. `...`) the similarity degenerates to 1 and the candidate is declared
a duplicate, as the counterexample shows. -/
theorem isDuplicateComment_empty_body_amended (existing : List ReviewComment) (prox : Nat)
    (cl : Int)
    (h : ∀ e ∈ existing, (e.line - cl).natAbs ≤ prox → normalizeStr e.body ≠ "") :
    isDuplicateComment ⟨cl, ""⟩ existing prox = false := by
  induction existing with
  | nil => rfl
  | cons e rest ih =>
    have hrest : isDuplicateComment ⟨cl, ""⟩ rest prox = false :=
      ih (fun x hx hp => h x (List.mem_cons_of_mem _ hx) hp)
    by_cases hfar : (e.line - cl).natAbs > prox
    · rw [show isDuplicateComment ⟨cl, ""⟩ (e :: rest) prox
          = isDuplicateComment ⟨cl, ""⟩ rest prox from by
        simp [isDuplicateComment, hfar]]
      exact hrest
    · have hnear : (e.line - cl).natAbs ≤ prox := by omega
      have hnb : normalizeStr e.body ≠ "" := h e (List.mem_cons_self e rest) hnear
      have htsolid : normalizeStr (extractCommentTemplate e.body) ≠ "" :=
        template_preserves_nonempty_normalize e.body hnb
      have htne : ¬ extractCommentTemplate e.body
          = extractCommentTemplate (ReviewComment.mk cl "").body := by
        intro hx
        apply htsolid
        rw [hx]
        rfl
      have hkw : calculateKeywordOverlap
          (extractKeywordsFromComment (ReviewComment.mk cl "").body)
          (extractKeywordsFromComment e.body) = 0 := by
        rw [show extractKeywordsFromComment (ReviewComment.mk cl "").body = [] from rfl]
        simp [calculateKeywordOverlap]
      have htxt : stringSimilarity (ReviewComment.mk cl "").body e.body = 0 :=
        stringSimilarity_empty_left e.body hnb
      have htmpl : stringSimilarity (extractCommentTemplate (ReviewComment.mk cl "").body)
          (extractCommentTemplate e.body) = 0 := by
        rw [show extractCommentTemplate (ReviewComment.mk cl "").body = "" from rfl]
        exact stringSimilarity_empty_left _ htsolid
      rw [show isDuplicateComment ⟨cl, ""⟩ (e :: rest) prox
          = isDuplicateComment ⟨cl, ""⟩ rest prox from by
        simp only [isDuplicateComment]
        rw [if_neg hfar, if_neg htne, if_neg ?_]
        rw [hkw, htxt, htmpl]
        norm_num]
      exact hrest

/-- Witness for the amended C9: an empty candidate against a nearby
existing comment with a normally non-empty body is not a duplicate. -/
theorem isDuplicateComment_empty_body_amended_witness :
    (∀ e ∈ [ReviewComment.mk 1 "hello world"],
      (e.line - 1).natAbs ≤ 5 → normalizeStr e.body ≠ "")
    ∧ isDuplicateComment ⟨1, ""⟩ [ReviewComment.mk 1 "hello world"] 5 = false :=
  ⟨by decide,
   isDuplicateComment_empty_body_amended [ReviewComment.mk 1 "hello world"] 5 1 (by decide)⟩
